import Mathlib

/-!
Verification of the maze-runner component (src/components/maze-runner.tsx).

The development shallowly embeds the component's core logic:
  * grid building from the raw maze text and the symbol configuration
    (the `useEffect` at lines 113-130),
  * the breadth-first solver `solveMaze` (lines 81-111) together with its
    helpers `getNextCell` (lines 49-61) and `getKeyForDirection` (lines 63-70),
  * the replay loop `animatePath` (lines 72-79),
  * the manual-move handler `handleKeyPress` (lines 141-158).

JavaScript arrays indexed out of range yield `undefined`, which every use
site here immediately filters with a truthiness test; those lookups are
modelled with `Option`.  The `end` identifier is a Lean keyword, so the
cell kind `'end'` is rendered as `CellType.finish` and the state fields
`start`/`end` as `startCell`/`endCell`.
-/

/-- Cell kind, from the `type` field of the source's `Cell`.
`finish` renders the source's `'end'` (a Lean keyword). -/
inductive CellType where
  | wall
  | path
  | start
  | finish
deriving DecidableEq, Repr

/-- The source's `Cell`: coordinates plus a kind. -/
structure Cell where
  x : Nat
  y : Nat
  type : CellType
deriving DecidableEq, Repr

/-- The source's `Direction`. -/
inductive Direction where
  | up
  | down
  | left
  | right
deriving DecidableEq, Repr

/-- The `moveKeys` state: one key string per direction. -/
structure MoveKeys where
  up : String
  down : String
  left : String
  right : String
deriving DecidableEq, Repr

/-- The four symbol fields `wallSymbol`, `pathSymbol`, `startSymbol`,
`endSymbol` of the component state. -/
structure SymbolConfig where
  wallSymbol : String
  pathSymbol : String
  startSymbol : String
  endSymbol : String
deriving DecidableEq, Repr

/-- One queue element of `solveMaze`: `{ cell, path, moves }`. -/
structure Entry where
  cell : Cell
  path : List Cell
  moves : List String
deriving DecidableEq, Repr

/-- Outcome of one `solveMaze` invocation.  `missingEndpoint` is the early
`return` at line 82, `noPath` the `alert('No path found!')` at line 110,
`found` the return at lines 90-94. -/
inductive SolveOutcome where
  | missingEndpoint
  | noPath
  | found (path : List Cell) (moves : List String)
deriving DecidableEq, Repr

/-- `mazeGrid[y][x]`, with out-of-range lookups as `none`. -/
def getCell (grid : List (List Cell)) (y x : Nat) : Option Cell :=
  grid[y]?.bind (fun row => row[x]?)

/-- `mazeGrid[0].length` (0 for an empty grid; the source only evaluates it
when the grid is nonempty). -/
def gridWidth (grid : List (List Cell)) : Nat :=
  match grid with
  | [] => 0
  | row :: _ => row.length

/-- `getNextCell` (lines 49-61): the neighbouring cell in a direction, or
`null` when the bounds check fails. -/
def getNextCell (grid : List (List Cell)) (cell : Cell) (d : Direction) : Option Cell :=
  match d with
  | .up => if cell.y > 0 then getCell grid (cell.y - 1) cell.x else none
  | .down => if cell.y < grid.length - 1 then getCell grid (cell.y + 1) cell.x else none
  | .left => if cell.x > 0 then getCell grid cell.y (cell.x - 1) else none
  | .right => if cell.x < gridWidth grid - 1 then getCell grid cell.y (cell.x + 1) else none

/-- `getKeyForDirection` (lines 63-70). -/
def getKeyForDirection (mk : MoveKeys) (d : Direction) : String :=
  match d with
  | .up => mk.up
  | .down => mk.down
  | .left => mk.left
  | .right => mk.right

/-- Cell-kind classification of one character (line 119):
wall symbol first, then start, then end, everything else is a path. -/
def classify (ch : Char) (syms : SymbolConfig) : CellType :=
  if ch.toString = syms.wallSymbol then .wall
  else if ch.toString = syms.startSymbol then .start
  else if ch.toString = syms.endSymbol then .finish
  else .path

/-- One row of the grid build (line 116): each character becomes a cell
carrying its column index. -/
def buildRow (syms : SymbolConfig) (y : Nat) : Nat → List Char → List Cell
  | _, [] => []
  | x, ch :: rest => ⟨x, y, classify ch syms⟩ :: buildRow syms y (x + 1) rest

/-- All rows of the grid build (line 115), carrying the row index. -/
def buildRows (syms : SymbolConfig) : Nat → List String → List (List Cell)
  | _, [] => []
  | y, row :: rest => buildRow syms y 0 row.data :: buildRows syms (y + 1) rest

/-- The grid built from the maze text at lines 115-121. -/
def buildGrid (maze : List String) (syms : SymbolConfig) : List (List Cell) :=
  buildRows syms 0 maze

/-- `grid.flat().find(cell => cell.type === 'start') || null` (line 123). -/
def findStartCell (grid : List (List Cell)) : Option Cell :=
  grid.flatten.find? (fun c => c.type == CellType.start)

/-- `grid.flat().find(cell => cell.type === 'end') || null` (line 124). -/
def findEndCell (grid : List (List Cell)) : Option Cell :=
  grid.flatten.find? (fun c => c.type == CellType.finish)

/-- The visited matrix initialisation (line 84):
`maze.map(row => row.split('').map(() => false))`. -/
def mkVisited (maze : List String) : List (List Bool) :=
  maze.map (fun row => row.data.map (fun _ => false))

/-- `visited[y][x]` (false when out of range; the source only reads
in-range positions). -/
def getV (v : List (List Bool)) (y x : Nat) : Bool :=
  (v[y]?.bind (fun row => row[x]?)).getD false

/-- `visited[y][x] = true` (no-op when out of range; the source only writes
in-range positions). -/
def setV (v : List (List Bool)) (y x : Nat) : List (List Bool) :=
  v.set y ((v[y]?.getD []).set x true)

/-- Number of unvisited positions; the solver's termination measure. -/
def countUnvisited (v : List (List Bool)) : Nat :=
  (v.map (fun row => row.count false)).sum

/-- One iteration of the `for (const direction of directions)` loop at
lines 97-107: look up the neighbour, and when it exists, is unvisited and
is not a wall, mark it visited and push it with the extended path and move
list.  The third component logs the coordinates `(x, y)` of every enqueued
cell; it is instrumentation for stating visitation invariants and does not
influence control flow. -/
def pushOne (grid : List (List Cell)) (mk : MoveKeys) (en : Entry)
    (st : List Entry × List (List Bool) × List (Nat × Nat)) (d : Direction) :
    List Entry × List (List Bool) × List (Nat × Nat) :=
  match getNextCell grid en.cell d with
  | none => st
  | some n =>
    if getV st.2.1 n.y n.x = false ∧ n.type ≠ CellType.wall then
      (st.1 ++ [⟨n, en.path ++ [n], en.moves ++ [getKeyForDirection mk d]⟩],
        setV st.2.1 n.y n.x,
        st.2.2 ++ [(n.x, n.y)])
    else st

/-- The fixed exploration order (line 96). -/
def allDirections : List Direction :=
  [Direction.up, Direction.down, Direction.left, Direction.right]

/-- The `while (queue.length > 0)` loop of `solveMaze` (lines 87-108).
The loop terminates because every enqueue marks a previously unvisited
position, so `queue.length + countUnvisited` drops by one each iteration;
`fuel` is any bound on that measure.  `el` logs enqueued coordinates and
`dl` logs dequeued coordinates (instrumentation only). -/
def bfsAux (grid : List (List Cell)) (e : Cell) (mk : MoveKeys) :
    Nat → List Entry → List (List Bool) → List (Nat × Nat) → List (Nat × Nat) →
    Option (SolveOutcome × List (Nat × Nat) × List (Nat × Nat))
  | 0, _, _, _, _ => none
  | _ + 1, [], _, el, dl => some (.noPath, el, dl)
  | fuel + 1, en :: rest, v, el, dl =>
    let dl' := dl ++ [(en.cell.x, en.cell.y)]
    if en.cell.x = e.x ∧ en.cell.y = e.y then
      some (.found en.path en.moves, el, dl')
    else
      let st := allDirections.foldl (pushOne grid mk en) (rest, v, el)
      bfsAux grid e mk fuel st.1 st.2.1 st.2.2 dl'

/-- Fuel bound: one more than the measure of the initial solver state
(queue length 1 plus one unvisited slot per maze character). -/
def totalFuel (maze : List String) : Nat :=
  2 + (maze.map String.length).sum

/-- `solveMaze` (lines 81-111) with the enqueue/dequeue logs.
Inputs are the pieces of component state the closure reads: the raw maze
text (for the visited matrix), the built grid (through `getNextCell`), the
designated start and end cells and the move keys. -/
def solveMazeFull (maze : List String) (grid : List (List Cell))
    (s? e? : Option Cell) (mk : MoveKeys) :
    Option (SolveOutcome × List (Nat × Nat) × List (Nat × Nat)) :=
  match s?, e? with
  | some s, some e =>
    bfsAux grid e mk (totalFuel maze) [⟨s, [s], []⟩] (mkVisited maze) [(s.x, s.y)] []
  | _, _ => some (.missingEndpoint, [], [])

/-- `solveMaze` without the instrumentation logs. -/
def solveMaze (maze : List String) (grid : List (List Cell))
    (s? e? : Option Cell) (mk : MoveKeys) : Option SolveOutcome :=
  (solveMazeFull maze grid s? e? mk).map (fun r => r.1)

/-- The slice of component state read and written by the modelled
operations: the raw text, the grid, the designated endpoints (`start` /
`end` in the source), the cursor, the solution string, the animation flag
and the key bindings. -/
structure MazeState where
  maze : List String
  mazeGrid : List (List Cell)
  startCell : Option Cell
  endCell : Option Cell
  currentPos : Option Cell
  solutionMoves : String
  isAnimating : Bool
  moveKeys : MoveKeys
deriving DecidableEq, Repr

/-- The cursor positions produced by the `for (const cell of path)` loop of
`animatePath` (lines 74-77), in order. -/
def animatePathPositions : List Cell → Option Cell → List (Option Cell)
  | [], _ => []
  | c :: rest, _ => some c :: animatePathPositions rest (some c)

/-- The cursor position after `animatePath` has run to completion. -/
def replayFinal (path : List Cell) (pos : Option Cell) : Option Cell :=
  path.foldl (fun _ c => some c) pos

/-- Effect of one `solveMaze` invocation on the component state, observed
after any started animation has completed: on success the cursor ends on
the last path cell, the animation flag is back to `false` and
`solutionMoves` holds `moves.join('')`; on a missing endpoint or an empty
queue the state is untouched (the failure surfaces as a disabled run or an
`alert`). -/
def solveStep (st : MazeState) : MazeState :=
  match solveMaze st.maze st.mazeGrid st.startCell st.endCell st.moveKeys with
  | some (.found p m) =>
    { st with
      currentPos := replayFinal p st.currentPos
      isAnimating := false
      solutionMoves := String.join m }
  | _ => st

/-- Key-to-direction matching of `handleKeyPress` (lines 147-150). -/
def keyToDirection (mk : MoveKeys) (k : String) : Option Direction :=
  if k = mk.up then some .up
  else if k = mk.down then some .down
  else if k = mk.left then some .left
  else if k = mk.right then some .right
  else none

/-- `handleKeyPress` (lines 141-158): rejected while animating; the key is
lowercased, mapped to a direction, and the cursor moves only when the
neighbour exists and is not a wall. -/
def handleKeyPress (st : MazeState) (key : String) : MazeState :=
  if st.isAnimating then st
  else
    match keyToDirection st.moveKeys key.toLower with
    | none => st
    | some d =>
      match st.currentPos with
      | none => st
      | some p =>
        match getNextCell st.mazeGrid p d with
        | some n => if n.type ≠ CellType.wall then { st with currentPos := some n } else st
        | none => st

/-- Spec-side adjacency: `n` is a valid move target from `c` — it lies one
step away in some direction, inside the grid, and is not a wall
(spec sections 4.2 and 4.3). -/
def Step (grid : List (List Cell)) (c n : Cell) : Prop :=
  ∃ d : Direction, getNextCell grid c d = some n ∧ n.type ≠ CellType.wall

instance (grid : List (List Cell)) (c n : Cell) : Decidable (Step grid c n) :=
  decidable_of_iff
    (∃ d ∈ allDirections, getNextCell grid c d = some n ∧ n.type ≠ CellType.wall)
    (by
      constructor
      · rintro ⟨d, _, h⟩; exact ⟨d, h⟩
      · rintro ⟨d, h⟩
        refine ⟨d, ?_, h⟩
        cases d <;> simp [allDirections])

/-- Spec-side walk: a nonempty cell sequence starting at `s` whose
consecutive cells are valid move targets. -/
def WalkFrom (grid : List (List Cell)) (s : Cell) (p : List Cell) : Prop :=
  p.head? = some s ∧ List.Chain' (Step grid) p

/-- The walk ends on the coordinates of `e`. -/
def EndsAt (p : List Cell) (e : Cell) : Prop :=
  ∃ c, p.getLast? = some c ∧ c.x = e.x ∧ c.y = e.y

/-- Spec-side reachability of `e` from `s` (spec section 8). -/
def Reaches (grid : List (List Cell)) (s e : Cell) : Prop :=
  ∃ p, WalkFrom grid s p ∧ EndsAt p e

/-- `n` is the shortest-path graph distance from `s` to the coordinates of
`e`: attained by some walk (with `n + 1` cells) and a lower bound on every
walk (spec sections 4.2 and 8). -/
def IsShortestDist (grid : List (List Cell)) (s e : Cell) (n : Nat) : Prop :=
  (∃ p, WalkFrom grid s p ∧ EndsAt p e ∧ p.length = n + 1) ∧
  ∀ p, WalkFrom grid s p → EndsAt p e → n + 1 ≤ p.length

/-- The cell occurs somewhere in the grid. -/
def InGrid (grid : List (List Cell)) (c : Cell) : Prop :=
  ∃ y x, getCell grid y x = some c

/-- Spec-side description of the move list: one entry per step of the path,
each the key bound to the direction taken (spec section 4.2). -/
inductive MovesFor (grid : List (List Cell)) (mk : MoveKeys) : List Cell → List String → Prop where
  | single (c : Cell) : MovesFor grid mk [c] []
  | step (a b : Cell) (p : List Cell) (k : String) (m : List String) (d : Direction) :
      getNextCell grid a d = some b → k = getKeyForDirection mk d →
      MovesFor grid mk (b :: p) m → MovesFor grid mk (a :: b :: p) (k :: m)


/-- Character of the maze text at row `y`, column `x`. -/
def charAt (maze : List String) (y x : Nat) : Option Char :=
  maze[y]?.bind (fun row => row.data[x]?)

/-- The grid rows fit inside the visited matrix: every grid cell's own
coordinates index an entry of `v`.  This holds whenever grid and visited
matrix were built from the same maze text, as in `solveMaze`. -/
def VFits (grid : List (List Cell)) (v : List (List Bool)) : Prop :=
  ∀ c, InGrid grid c → ∃ row, v[c.y]? = some row ∧ c.x < row.length

theorem buildRow_getElem (syms : SymbolConfig) (y : Nat) :
    ∀ (cs : List Char) (x0 i : Nat),
      (buildRow syms y x0 cs)[i]? =
        cs[i]?.map (fun ch => (⟨x0 + i, y, classify ch syms⟩ : Cell)) := by
  intro cs
  induction cs with
  | nil => intro x0 i; simp [buildRow]
  | cons ch rest ih =>
    intro x0 i
    cases i with
    | zero => simp [buildRow]
    | succ i =>
      have harith : x0 + 1 + i = x0 + (i + 1) := by omega
      simp only [buildRow, List.getElem?_cons_succ, ih (x0 + 1) i, harith]

theorem buildRows_getElem (syms : SymbolConfig) :
    ∀ (rs : List String) (y0 j : Nat),
      (buildRows syms y0 rs)[j]? =
        rs[j]?.map (fun row => buildRow syms (y0 + j) 0 row.data) := by
  intro rs
  induction rs with
  | nil => intro y0 j; simp [buildRows]
  | cons row rest ih =>
    intro y0 j
    cases j with
    | zero => simp [buildRows]
    | succ j =>
      have harith : y0 + 1 + j = y0 + (j + 1) := by omega
      simp only [buildRows, List.getElem?_cons_succ, ih (y0 + 1) j, harith]

theorem getCell_buildGrid (maze : List String) (syms : SymbolConfig) (y x : Nat) :
    getCell (buildGrid maze syms) y x =
      (charAt maze y x).map (fun ch => (⟨x, y, classify ch syms⟩ : Cell)) := by
  simp only [getCell, buildGrid, charAt, buildRows_getElem, Nat.zero_add]
  cases h : maze[y]? with
  | none => simp
  | some row => simp [buildRow_getElem]

theorem buildGrid_cellSpec {maze : List String} {syms : SymbolConfig} {y x : Nat} {c : Cell}
    (h : getCell (buildGrid maze syms) y x = some c) :
    ∃ ch, charAt maze y x = some ch ∧ c = ⟨x, y, classify ch syms⟩ := by
  rw [getCell_buildGrid] at h
  cases hch : charAt maze y x with
  | none => rw [hch] at h; cases h
  | some ch => rw [hch] at h; exact ⟨ch, rfl, (Option.some_inj.mp h).symm⟩

theorem buildGrid_coords {maze : List String} {syms : SymbolConfig} {y x : Nat} {c : Cell}
    (h : getCell (buildGrid maze syms) y x = some c) : c.x = x ∧ c.y = y := by
  obtain ⟨ch, _, rfl⟩ := buildGrid_cellSpec h
  exact ⟨rfl, rfl⟩

theorem inGrid_buildGrid_self {maze : List String} {syms : SymbolConfig} {c : Cell}
    (h : InGrid (buildGrid maze syms) c) :
    getCell (buildGrid maze syms) c.y c.x = some c := by
  obtain ⟨y, x, h⟩ := h
  obtain ⟨hx, hy⟩ := buildGrid_coords h
  rw [hx, hy]; exact h

theorem vfits_buildGrid (maze : List String) (syms : SymbolConfig) :
    VFits (buildGrid maze syms) (mkVisited maze) := by
  intro c hc
  obtain ⟨y, x, h⟩ := hc
  obtain ⟨hx, hy⟩ := buildGrid_coords h
  obtain ⟨ch, hch, _⟩ := buildGrid_cellSpec h
  simp only [charAt] at hch
  cases hrow : maze[y]? with
  | none => rw [hrow] at hch; cases hch
  | some row =>
    rw [hrow] at hch
    simp only [Option.some_bind] at hch
    have hlt : x < row.data.length := (List.getElem?_eq_some.mp hch).fst
    refine ⟨row.data.map (fun _ => false), ?_, ?_⟩
    · simp [mkVisited, List.getElem?_map, hy, hrow]
    · simp only [List.length_map, hx]
      exact hlt

theorem vfits_of_dims {grid : List (List Cell)} {v v' : List (List Bool)}
    (h : VFits grid v) (hd : v'.map List.length = v.map List.length) : VFits grid v' := by
  intro c hc
  obtain ⟨row, hrow, hlt⟩ := h c hc
  have h1 : (v'.map List.length)[c.y]? = some row.length := by
    rw [hd, List.getElem?_map, hrow]; rfl
  rw [List.getElem?_map] at h1
  cases hrow' : v'[c.y]? with
  | none => rw [hrow'] at h1; cases h1
  | some row' =>
    rw [hrow'] at h1
    refine ⟨row', rfl, ?_⟩
    have : row'.length = row.length := Option.some_inj.mp h1
    omega

theorem setV_dims (v : List (List Bool)) (y x : Nat) :
    (setV v y x).map List.length = v.map List.length := by
  apply List.ext_getElem?
  intro j
  simp only [List.getElem?_map, setV]
  by_cases hj : y = j
  · subst hj
    rw [List.getElem?_set_self']
    cases h : v[y]? with
    | none => simp
    | some row => simp [List.length_set]
  · rw [List.getElem?_set_ne hj]

theorem getV_setV {v : List (List Bool)} {y x : Nat} {row : List Bool}
    (hrow : v[y]? = some row) (hx : x < row.length) (y' x' : Nat) :
    getV (setV v y x) y' x' = if y' = y ∧ x' = x then true else getV v y' x' := by
  by_cases hy : y = y'
  · subst hy
    have h1 : (setV v y x)[y]? = some (row.set x true) := by
      simp [setV, List.getElem?_set_self', hrow]
    by_cases hx' : x' = x
    · subst hx'
      simp [getV, h1, List.getElem?_set_eq_of_lt _ hx]
    · have h2 : (row.set x true)[x']? = row[x']? :=
        List.getElem?_set_ne (fun h => hx' h.symm)
      simp [getV, h1, h2, hx', hrow]
  · have h1 : (setV v y x)[y']? = v[y']? := List.getElem?_set_ne hy
    have hcond : ¬(y' = y ∧ x' = x) := fun hc => hy hc.1.symm
    simp [getV, h1, hcond]

theorem getV_mono {v : List (List Bool)} {y x y' x' : Nat}
    (h : getV v y' x' = true) : getV (setV v y x) y' x' = true := by
  simp only [getV] at h
  have hsome : (v[y']?.bind fun r => r[x']?) = some true := by
    cases hh : (v[y']?.bind fun r => r[x']?) with
    | none => rw [hh] at h; cases h
    | some b => rw [hh] at h; rw [Option.getD_some] at h; rw [h]
  obtain ⟨row', hrow', hb⟩ := Option.bind_eq_some.mp hsome
  have hx'lt : x' < row'.length := (List.getElem?_eq_some.mp hb).fst
  by_cases hy : y = y'
  · subst hy
    have h1 : (setV v y x)[y]? = some (row'.set x true) := by
      simp [setV, List.getElem?_set_self', hrow']
    by_cases hx' : x = x'
    · subst hx'
      simp [getV, h1, List.getElem?_set_eq_of_lt _ hx'lt]
    · have h2 : (row'.set x true)[x']? = row'[x']? := List.getElem?_set_ne hx'
      simp [getV, h1, h2, hb]
  · have h1 : (setV v y x)[y']? = v[y']? := List.getElem?_set_ne hy
    simp [getV, h1, hrow', hb]

theorem count_false_set_true :
    ∀ (row : List Bool) (x : Nat), row[x]? = some false →
      (row.set x true).count false + 1 = row.count false := by
  intro row
  induction row with
  | nil => intro x h; cases h
  | cons b t ih =>
    intro x h
    cases x with
    | zero =>
      rw [List.getElem?_cons_zero] at h
      obtain rfl : b = false := (Option.some_inj.mp h).symm ▸ rfl
      simp [List.count_cons]
    | succ x =>
      rw [List.getElem?_cons_succ] at h
      rw [List.set_cons_succ]
      simp only [List.count_cons]
      have := ih x h
      omega

theorem countUnvisited_setV :
    ∀ (v : List (List Bool)) (y x : Nat) (row : List Bool),
      v[y]? = some row → row[x]? = some false →
      countUnvisited (setV v y x) + 1 = countUnvisited v := by
  intro v
  induction v with
  | nil => intro y x row h; cases h
  | cons r t ih =>
    intro y x row hrow hx
    cases y with
    | zero =>
      rw [List.getElem?_cons_zero] at hrow
      obtain rfl : r = row := Option.some_inj.mp hrow
      simp only [setV, List.getElem?_cons_zero, Option.getD_some, List.set_cons_zero,
        countUnvisited, List.map_cons, List.sum_cons]
      have := count_false_set_true r x hx
      omega
    | succ y =>
      rw [List.getElem?_cons_succ] at hrow
      simp only [setV, List.getElem?_cons_succ, List.set_cons_succ, countUnvisited,
        List.map_cons, List.sum_cons]
      have := ih y x row hrow hx
      simp only [setV, countUnvisited] at this
      omega

theorem getV_mkVisited (maze : List String) (y x : Nat) :
    getV (mkVisited maze) y x = false := by
  simp only [getV, mkVisited, List.getElem?_map]
  cases h : maze[y]? with
  | none => simp
  | some row =>
    simp only [Option.map_some', Option.some_bind, List.getElem?_map]
    cases row.data[x]? <;> simp

theorem count_false_map_false (l : List Char) :
    (l.map (fun _ => false)).count false = l.length := by
  induction l with
  | nil => rfl
  | cons a t ih => simp [List.count_cons, ih]

theorem countUnvisited_mkVisited (maze : List String) :
    countUnvisited (mkVisited maze) = (maze.map String.length).sum := by
  simp only [countUnvisited, mkVisited, List.map_map]
  congr 1
  apply List.map_congr_left
  intro row _
  simp only [Function.comp_apply]
  rw [count_false_map_false]
  rfl

theorem getNextCell_inGrid {grid : List (List Cell)} {c n : Cell} {d : Direction}
    (h : getNextCell grid c d = some n) : InGrid grid n := by
  cases d <;> simp only [getNextCell] at h <;> split at h <;>
    first
      | exact ⟨_, _, h⟩
      | cases h

theorem getNextCell_congr {grid : List (List Cell)} {c c' : Cell}
    (hx : c.x = c'.x) (hy : c.y = c'.y) (d : Direction) :
    getNextCell grid c d = getNextCell grid c' d := by
  cases d <;> simp [getNextCell, hx, hy]

/-- Coordinates `(x, y)` of an entry's cell. -/
def ecoords (en : Entry) : Nat × Nat :=
  (en.cell.x, en.cell.y)

/-- Edge length of an entry's accumulated path. -/
def elen (en : Entry) : Nat :=
  en.path.length - 1

theorem getV_eq_false_row {v : List (List Bool)} {y x : Nat} {row : List Bool}
    (hrow : v[y]? = some row) (hx : x < row.length) (h : getV v y x = false) :
    row[x]? = some false := by
  rw [List.getElem?_eq_getElem hx]
  simp only [getV, hrow, Option.some_bind, List.getElem?_eq_getElem hx, Option.getD_some] at h
  rw [h]

/-- Everything the breadth-first invariants need to know about one pass of
the direction loop over a queue entry `en`: the new entries `news` are
appended to the queue and the enqueue log, each arises from an unvisited
non-wall neighbour, their coordinates are distinct, the visited marks grow
by exactly those coordinates, and every non-wall neighbour of `en.cell` is
marked afterwards. -/
structure ExpandNews (grid : List (List Cell)) (mk : MoveKeys) (en : Entry)
    (ds : List Direction) (q : List Entry) (v : List (List Bool)) (l : List (Nat × Nat))
    (out : List Entry × List (List Bool) × List (Nat × Nat)) (news : List Entry) : Prop where
  queueEq : out.1 = q ++ news
  logEq : out.2.2 = l ++ news.map ecoords
  newsSpec : ∀ en' ∈ news, ∃ d ∈ ds, ∃ n, getNextCell grid en.cell d = some n ∧
      n.type ≠ CellType.wall ∧ getV v n.y n.x = false ∧
      en' = ⟨n, en.path ++ [n], en.moves ++ [getKeyForDirection mk d]⟩
  nodup : (news.map ecoords).Nodup
  marks : ∀ y x, getV out.2.1 y x = true ↔ (getV v y x = true ∨ (x, y) ∈ news.map ecoords)
  dims : out.2.1.map List.length = v.map List.length
  countEq : countUnvisited out.2.1 + news.length = countUnvisited v
  coverage : ∀ d ∈ ds, ∀ n, getNextCell grid en.cell d = some n → n.type ≠ CellType.wall →
      getV v n.y n.x = true ∨ (n.x, n.y) ∈ news.map ecoords

theorem foldPush_spec (grid : List (List Cell)) (mk : MoveKeys) (en : Entry) :
    ∀ (ds : List Direction) (q : List Entry) (v : List (List Bool)) (l : List (Nat × Nat)),
      VFits grid v →
      ∃ news, ExpandNews grid mk en ds q v l
        (List.foldl (pushOne grid mk en) (q, v, l) ds) news := by
  intro ds
  induction ds with
  | nil =>
    intro q v l _
    refine ⟨[], ?_⟩
    constructor <;> simp
  | cons d ds ih =>
    intro q v l hfit
    rw [List.foldl_cons]
    cases hn : getNextCell grid en.cell d with
    | none =>
      have hstep : pushOne grid mk en (q, v, l) d = (q, v, l) := by
        simp [pushOne, hn]
      rw [hstep]
      obtain ⟨news, hx⟩ := ih q v l hfit
      refine ⟨news, ?_⟩
      constructor
      · exact hx.queueEq
      · exact hx.logEq
      · intro en' hm
        obtain ⟨d', hd', rest⟩ := hx.newsSpec en' hm
        exact ⟨d', List.mem_cons_of_mem _ hd', rest⟩
      · exact hx.nodup
      · exact hx.marks
      · exact hx.dims
      · exact hx.countEq
      · intro d' hd' n hnn hnw
        rcases List.mem_cons.mp hd' with rfl | hd'
        · rw [hn] at hnn; cases hnn
        · exact hx.coverage d' hd' n hnn hnw
    | some n =>
      by_cases hc : getV v n.y n.x = false ∧ n.type ≠ CellType.wall
      · -- the neighbour is pushed and marked
        have hstep : pushOne grid mk en (q, v, l) d =
            (q ++ [⟨n, en.path ++ [n], en.moves ++ [getKeyForDirection mk d]⟩],
              setV v n.y n.x, l ++ [(n.x, n.y)]) := by
          simp [pushOne, hn, hc]
        rw [hstep]
        obtain ⟨row, hrow, hxlt⟩ := hfit n (getNextCell_inGrid hn)
        have hgv := getV_setV hrow hxlt
        have hfit' : VFits grid (setV v n.y n.x) :=
          vfits_of_dims hfit (setV_dims v n.y n.x)
        obtain ⟨news', hx⟩ := ih (q ++ [⟨n, en.path ++ [n], en.moves ++ [getKeyForDirection mk d]⟩])
          (setV v n.y n.x) (l ++ [(n.x, n.y)]) hfit'
        set en₀ : Entry := ⟨n, en.path ++ [n], en.moves ++ [getKeyForDirection mk d]⟩ with hen₀
        have hnotnew : ∀ z ∈ news'.map ecoords, z ≠ (n.x, n.y) := by
          intro z hz hzz
          obtain ⟨en'', hmem, hco⟩ := List.mem_map.mp hz
          obtain ⟨d', _, n', hnn', _, hv', he'⟩ := hx.newsSpec en'' hmem
          rw [he'] at hco
          simp only [ecoords] at hco
          have hxx : n'.x = n.x := by rw [← hco] at hzz; exact congrArg Prod.fst hzz
          have hyy : n'.y = n.y := by rw [← hco] at hzz; exact congrArg Prod.snd hzz
          rw [hgv n'.y n'.x] at hv'
          simp [hyy, hxx] at hv'
        refine ⟨en₀ :: news', ?_⟩
        constructor
        · rw [hx.queueEq, List.append_assoc]
          rfl
        · rw [hx.logEq, List.append_assoc]
          rfl
        · intro en' hm
          rcases List.mem_cons.mp hm with rfl | hm
          · exact ⟨d, List.mem_cons_self d ds, n, hn, hc.2, hc.1, rfl⟩
          · obtain ⟨d', hd', n', hnn', hnw', hv', he'⟩ := hx.newsSpec en' hm
            refine ⟨d', List.mem_cons_of_mem _ hd', n', hnn', hnw', ?_, he'⟩
            rw [hgv n'.y n'.x] at hv'
            by_cases hco : n'.y = n.y ∧ n'.x = n.x
            · simp [hco] at hv'
            · simpa [hco] using hv'
        · simp only [List.map_cons, List.nodup_cons]
          refine ⟨?_, hx.nodup⟩
          intro hmem
          exact hnotnew _ hmem rfl
        · intro y x
          rw [hx.marks y x, hgv y x]
          simp only [List.map_cons, List.mem_cons]
          constructor
          · rintro (hh | hh)
            · by_cases hco : y = n.y ∧ x = n.x
              · right
                left
                simp [ecoords, hen₀, hco.1, hco.2]
              · rw [if_neg hco] at hh
                exact Or.inl hh
            · right
              right
              exact hh
          · rintro (hh | hh | hh)
            · left
              by_cases hco : y = n.y ∧ x = n.x
              · simp [hco]
              · rw [if_neg hco]
                exact hh
            · left
              simp only [ecoords, hen₀] at hh
              have hxx : x = n.x := congrArg Prod.fst hh
              have hyy : y = n.y := congrArg Prod.snd hh
              simp [hyy, hxx]
            · right
              exact hh
        · rw [hx.dims]
          exact setV_dims v n.y n.x
        · have h1 := hx.countEq
          have h2 : countUnvisited (setV v n.y n.x) + 1 = countUnvisited v :=
            countUnvisited_setV v n.y n.x row hrow (getV_eq_false_row hrow hxlt hc.1)
          simp only [List.length_cons]
          omega
        · intro d' hd' n' hnn hnw
          rcases List.mem_cons.mp hd' with rfl | hd'
          · rw [hn] at hnn
            obtain rfl : n = n' := Option.some_inj.mp hnn
            right
            simp [List.map_cons, List.mem_cons, ecoords, hen₀]
          · rcases hx.coverage d' hd' n' hnn hnw with hh | hh
            · rw [hgv n'.y n'.x] at hh
              by_cases hco : n'.y = n.y ∧ n'.x = n.x
              · right
                simp [List.map_cons, List.mem_cons, ecoords, hen₀, hco.1, hco.2]
              · rw [if_neg hco] at hh
                exact Or.inl hh
            · right
              simp only [List.map_cons, List.mem_cons]
              exact Or.inr hh
      · -- the neighbour is skipped (already visited or a wall)
        have hstep : pushOne grid mk en (q, v, l) d = (q, v, l) := by
          simp only [pushOne, hn]
          rw [if_neg hc]
        rw [hstep]
        obtain ⟨news, hx⟩ := ih q v l hfit
        refine ⟨news, ?_⟩
        constructor
        · exact hx.queueEq
        · exact hx.logEq
        · intro en' hm
          obtain ⟨d', hd', rest⟩ := hx.newsSpec en' hm
          exact ⟨d', List.mem_cons_of_mem _ hd', rest⟩
        · exact hx.nodup
        · exact hx.marks
        · exact hx.dims
        · exact hx.countEq
        · intro d' hd' n' hnn hnw
          rcases List.mem_cons.mp hd' with rfl | hd'
          · rw [hn] at hnn
            obtain rfl : n = n' := Option.some_inj.mp hnn
            left
            rcases Bool.eq_false_or_eq_true (getV v n.y n.x) with hv | hv
            · exact hv
            · exact absurd ⟨hv, hnw⟩ hc
          · exact hx.coverage d' hd' n' hnn hnw

theorem walkFrom_single (grid : List (List Cell)) (s : Cell) : WalkFrom grid s [s] :=
  ⟨rfl, List.chain'_singleton s⟩

theorem walkFrom_length_pos {grid : List (List Cell)} {s : Cell} {p : List Cell}
    (h : WalkFrom grid s p) : 0 < p.length := by
  cases p with
  | nil => cases h.1
  | cons a t => simp

theorem walkFrom_extend {grid : List (List Cell)} {s c n : Cell} {p : List Cell}
    (h : WalkFrom grid s p) (hlast : p.getLast? = some c) (hstep : Step grid c n) :
    WalkFrom grid s (p ++ [n]) := by
  refine ⟨?_, ?_⟩
  · rw [List.head?_append, h.1]
    rfl
  · refine h.2.append (List.chain'_singleton n) ?_
    intro a ha b hb
    rw [Option.mem_def, hlast] at ha
    obtain rfl : c = a := Option.some_inj.mp ha
    rw [Option.mem_def] at hb
    obtain rfl : b = n := (Option.some_inj.mp hb).symm
    exact hstep

theorem movesFor_extend {grid : List (List Cell)} {mk : MoveKeys} {p : List Cell}
    {m : List String} (h : MovesFor grid mk p m) :
    ∀ {c n : Cell} {d : Direction}, p.getLast? = some c → getNextCell grid c d = some n →
    MovesFor grid mk (p ++ [n]) (m ++ [getKeyForDirection mk d]) := by
  induction h with
  | single c0 =>
    intro c n d hlast hn
    obtain rfl : c0 = c := Option.some_inj.mp hlast
    exact MovesFor.step c0 n [] _ [] d hn rfl (MovesFor.single n)
  | step a b p k m d0 hab hk hrec ih =>
    intro c n d hlast hn
    rw [List.getLast?_cons_cons] at hlast
    simpa using MovesFor.step a b (p ++ [n]) k (m ++ [getKeyForDirection mk d]) d0 hab hk
      (ih hlast hn)

theorem movesFor_length {grid : List (List Cell)} {mk : MoveKeys} {p : List Cell}
    {m : List String} (h : MovesFor grid mk p m) : m.length + 1 = p.length := by
  induction h with
  | single c => rfl
  | step a b p k m d hab hk hrec ih => simpa using ih

theorem movesFor_get {grid : List (List Cell)} {mk : MoveKeys} {p : List Cell}
    {m : List String} (h : MovesFor grid mk p m) :
    ∀ (i : Nat) (a b : Cell) (k : String), p[i]? = some a → p[i + 1]? = some b →
      m[i]? = some k →
      ∃ d, getNextCell grid a d = some b ∧ k = getKeyForDirection mk d := by
  induction h with
  | single c =>
    intro i a b k _ _ hk
    simp at hk
  | step a0 b0 p k0 m d hab hk hrec ih =>
    intro i a b k ha hb hkk
    cases i with
    | zero =>
      rw [List.getElem?_cons_zero] at ha
      obtain rfl : a0 = a := Option.some_inj.mp ha
      rw [List.getElem?_cons_succ, List.getElem?_cons_zero] at hb
      obtain rfl : b0 = b := Option.some_inj.mp hb
      rw [List.getElem?_cons_zero] at hkk
      obtain rfl : k0 = k := Option.some_inj.mp hkk
      exact ⟨d, hab, hk⟩
    | succ i =>
      rw [List.getElem?_cons_succ] at ha hb hkk
      exact ih i a b k ha hb hkk

/-- `d` ranges over the fixed exploration list. -/
theorem mem_allDirections (d : Direction) : d ∈ allDirections := by
  cases d <;> simp [allDirections]

theorem pairwise_le_of_const {l : List Entry} {k : Nat} (h : ∀ a ∈ l, elen a = k) :
    List.Pairwise (fun a b => elen a ≤ elen b) l := by
  induction l with
  | nil => exact List.Pairwise.nil
  | cons a t ih =>
    rw [List.pairwise_cons]
    refine ⟨fun b hb => ?_, ih (fun b hb => h b (List.mem_cons_of_mem _ hb))⟩
    rw [h a (List.mem_cons_self _ _), h b (List.mem_cons_of_mem _ hb)]

/-- Invariant of the solver loop, relating the queue `q`, the visited
matrix `v` and a ghost list `D` of already-expanded coordinates with the
edge length at which each was first dequeued.  Entries carry genuine walks
from `s`; queue edge lengths are sorted and spread over at most two
consecutive values; every visited coordinate is expanded or queued; every
non-wall neighbour of an expanded coordinate is expanded or queued at the
next level; expanded levels lower-bound queued levels; the start is
expanded or queued at level 0; the end has never been dequeued. -/
structure BfsInv (grid : List (List Cell)) (s e : Cell) (mk : MoveKeys)
    (q : List Entry) (v : List (List Bool)) (D : List (Nat × Nat × Nat)) : Prop where
  walks : ∀ en ∈ q, WalkFrom grid s en.path ∧ en.path.getLast? = some en.cell ∧
      MovesFor grid mk en.path en.moves ∧ InGrid grid en.cell
  sorted : List.Pairwise (fun a b => elen a ≤ elen b) q
  headBound : ∀ h ∈ q.head?, ∀ en ∈ q, elen en ≤ elen h + 1
  markedCov : ∀ y x, getV v y x = true →
      (∃ z ∈ D, z.1 = x ∧ z.2.1 = y) ∨ (∃ en ∈ q, en.cell.x = x ∧ en.cell.y = y)
  doneClosure : ∀ z ∈ D, ∀ c : Cell, c.x = z.1 → c.y = z.2.1 →
      ∀ d n, getNextCell grid c d = some n → n.type ≠ CellType.wall →
      (∃ z' ∈ D, z'.1 = n.x ∧ z'.2.1 = n.y ∧ z'.2.2 ≤ z.2.2 + 1) ∨
      (∃ en ∈ q, en.cell.x = n.x ∧ en.cell.y = n.y ∧ elen en ≤ z.2.2 + 1)
  doneLe : ∀ z ∈ D, ∀ en ∈ q, z.2.2 ≤ elen en
  startCov : (∃ z ∈ D, z.1 = s.x ∧ z.2.1 = s.y ∧ z.2.2 = 0) ∨
      (∃ en ∈ q, en.cell.x = s.x ∧ en.cell.y = s.y ∧ elen en = 0)
  endNotDone : ∀ z ∈ D, ¬(z.1 = e.x ∧ z.2.1 = e.y)

/-- Covering along a chain: if a walk tail starts at an expanded
coordinate of level at most `i`, then either some queue entry has edge
length at most `i` plus the number of remaining steps, or the walk's final
cell is itself expanded. -/
theorem cover_chain {grid : List (List Cell)} {s e : Cell} {mk : MoveKeys}
    {q : List Entry} {v : List (List Bool)} {D : List (Nat × Nat × Nat)}
    (inv : BfsInv grid s e mk q v D) :
    ∀ (p : List Cell) (c : Cell) (i : Nat),
      (∃ z ∈ D, z.1 = c.x ∧ z.2.1 = c.y ∧ z.2.2 ≤ i) →
      List.Chain (Step grid) c p →
      (∃ en ∈ q, elen en ≤ i + p.length) ∨
      (∃ z ∈ D, ∃ lc, (c :: p).getLast? = some lc ∧ z.1 = lc.x ∧ z.2.1 = lc.y) := by
  intro p
  induction p with
  | nil =>
    intro c i hD _
    obtain ⟨z, hz, hzx, hzy, _⟩ := hD
    exact Or.inr ⟨z, hz, c, by simp, hzx, hzy⟩
  | cons n p ih =>
    intro c i hD hch
    obtain ⟨z, hz, hzx, hzy, hzi⟩ := hD
    rw [List.chain_cons] at hch
    obtain ⟨⟨d, hn, hw⟩, hch'⟩ := hch
    rcases inv.doneClosure z hz c hzx.symm hzy.symm d n hn hw with
      ⟨z', hz', hz'x, hz'y, hz'le⟩ | ⟨en, hen, _, _, henle⟩
    · rcases ih n (i + 1) ⟨z', hz', hz'x, hz'y, by omega⟩ hch' with ⟨en, hen, hle⟩ | hr
      · refine Or.inl ⟨en, hen, ?_⟩
        simp only [List.length_cons]
        omega
      · obtain ⟨z'', hz'', lc, hlast, h1, h2⟩ := hr
        exact Or.inr ⟨z'', hz'', lc, by rwa [List.getLast?_cons_cons], h1, h2⟩
    · refine Or.inl ⟨en, hen, ?_⟩
      simp only [List.length_cons]
      omega

/-- Covering along a full walk from `s`: some queue entry is at most one
shorter than the walk, or the walk's final cell is already expanded. -/
theorem cover_walk {grid : List (List Cell)} {s e : Cell} {mk : MoveKeys}
    {q : List Entry} {v : List (List Bool)} {D : List (Nat × Nat × Nat)}
    (inv : BfsInv grid s e mk q v D) {p : List Cell} (hw : WalkFrom grid s p) :
    (∃ en ∈ q, elen en + 1 ≤ p.length) ∨
    (∃ z ∈ D, ∃ lc, p.getLast? = some lc ∧ z.1 = lc.x ∧ z.2.1 = lc.y) := by
  cases p with
  | nil => cases hw.1
  | cons a t =>
    obtain rfl : s = a := by
      have h1 := hw.1
      simp only [List.head?_cons, Option.some_inj] at h1
      exact h1.symm
    have hch : List.Chain (Step grid) s t := hw.2
    rcases inv.startCov with ⟨z, hz, hzx, hzy, hz0⟩ | ⟨en, hen, _, _⟩
    · rcases cover_chain inv t s 0 ⟨z, hz, hzx, hzy, by omega⟩ hch with ⟨en, hen, hle⟩ | hr
      · refine Or.inl ⟨en, hen, ?_⟩
        simp only [List.length_cons]
        omega
      · exact Or.inr hr
    · refine Or.inl ⟨en, hen, ?_⟩
      simp only [List.length_cons]
      omega

/-- Invariant preservation: expanding the dequeued head entry `en` (when it
is not the end) preserves the solver invariant, growing the ghost expanded
list by `en`'s coordinates at its level. -/
theorem bfsInv_step {grid : List (List Cell)} {s e : Cell} {mk : MoveKeys}
    {en : Entry} {rest news : List Entry} {v : List (List Bool)}
    {el : List (Nat × Nat)} {D : List (Nat × Nat × Nat)}
    {out : List Entry × List (List Bool) × List (Nat × Nat)}
    (inv : BfsInv grid s e mk (en :: rest) v D)
    (hnotend : ¬(en.cell.x = e.x ∧ en.cell.y = e.y))
    (hexp : ExpandNews grid mk en allDirections rest v el out news) :
    ∃ D', BfsInv grid s e mk (rest ++ news) out.2.1 D' := by
  have hwEn := inv.walks en (List.mem_cons_self en rest)
  have hlenEn : 0 < en.path.length := walkFrom_length_pos hwEn.1
  have hheadmin : ∀ a ∈ en :: rest, elen en ≤ elen a := by
    intro a ha
    rcases List.mem_cons.mp ha with rfl | ha
    · exact le_refl _
    · exact (List.pairwise_cons.mp inv.sorted).1 a ha
  have hb1 : ∀ a ∈ en :: rest, elen a ≤ elen en + 1 := by
    intro a ha
    exact inv.headBound en rfl a ha
  have hnewsGood : ∀ a ∈ news,
      (WalkFrom grid s a.path ∧ a.path.getLast? = some a.cell ∧
        MovesFor grid mk a.path a.moves ∧ InGrid grid a.cell) ∧ elen a = elen en + 1 := by
    intro a ha
    obtain ⟨d, _, n, hn, hw, _, he⟩ := hexp.newsSpec a ha
    subst he
    refine ⟨⟨?_, ?_, ?_, ?_⟩, ?_⟩
    · exact walkFrom_extend hwEn.1 hwEn.2.1 ⟨d, hn, hw⟩
    · exact List.getLast?_concat _
    · exact movesFor_extend hwEn.2.2.1 hwEn.2.1 hn
    · exact getNextCell_inGrid hn
    · simp only [elen, List.length_append, List.length_singleton]
      omega
  have hnewsElen : ∀ a ∈ news, elen a = elen en + 1 := fun a ha => (hnewsGood a ha).2
  have hwalks' : ∀ a ∈ rest ++ news, WalkFrom grid s a.path ∧
      a.path.getLast? = some a.cell ∧ MovesFor grid mk a.path a.moves ∧ InGrid grid a.cell := by
    intro a ha
    rcases List.mem_append.mp ha with ha | ha
    · exact inv.walks a (List.mem_cons_of_mem _ ha)
    · exact (hnewsGood a ha).1
  have hsorted' : List.Pairwise (fun a b => elen a ≤ elen b) (rest ++ news) := by
    rw [List.pairwise_append]
    refine ⟨(List.pairwise_cons.mp inv.sorted).2, pairwise_le_of_const hnewsElen, ?_⟩
    intro a ha b hb
    have h1 := hb1 a (List.mem_cons_of_mem _ ha)
    have h2 := hnewsElen b hb
    omega
  have hheadBound' : ∀ h ∈ (rest ++ news).head?, ∀ a ∈ rest ++ news,
      elen a ≤ elen h + 1 := by
    intro h hh a ha
    have hhmem : h ∈ rest ++ news := List.mem_of_mem_head? hh
    have h1 : elen en ≤ elen h := by
      rcases List.mem_append.mp hhmem with hmm | hmm
      · exact hheadmin h (List.mem_cons_of_mem _ hmm)
      · rw [hnewsElen h hmm]; omega
    have h2 : elen a ≤ elen en + 1 := by
      rcases List.mem_append.mp ha with hmm | hmm
      · exact hb1 a (List.mem_cons_of_mem _ hmm)
      · rw [hnewsElen a hmm]
    omega
  by_cases hmem : ∃ z ∈ D, z.1 = en.cell.x ∧ z.2.1 = en.cell.y
  · -- en's coordinates were already expanded; the ghost list is unchanged
    obtain ⟨zEn, hzEn, hzx, hzy⟩ := hmem
    have hzlevel : zEn.2.2 ≤ elen en := inv.doneLe zEn hzEn en (List.mem_cons_self _ _)
    refine ⟨D, ?_⟩
    constructor
    · exact hwalks'
    · exact hsorted'
    · exact hheadBound'
    · intro y x hvx
      rcases (hexp.marks y x).mp hvx with hold | hnew
      · rcases inv.markedCov y x hold with ⟨z, hz, h1, h2⟩ | ⟨a, ha, h1, h2⟩
        · exact Or.inl ⟨z, hz, h1, h2⟩
        · rcases List.mem_cons.mp ha with rfl | ha
          · exact Or.inl ⟨zEn, hzEn, hzx.trans h1, hzy.trans h2⟩
          · exact Or.inr ⟨a, List.mem_append_left _ ha, h1, h2⟩
      · obtain ⟨a, ha, hco⟩ := List.mem_map.mp hnew
        refine Or.inr ⟨a, List.mem_append_right _ ha, ?_, ?_⟩
        · exact congrArg Prod.fst hco
        · exact congrArg Prod.snd hco
    · intro z hz c hcx hcy d n hn hw
      rcases inv.doneClosure z hz c hcx hcy d n hn hw with
        ⟨z', hz', h1, h2, h3⟩ | ⟨a, ha, h1, h2, h3⟩
      · exact Or.inl ⟨z', hz', h1, h2, h3⟩
      · rcases List.mem_cons.mp ha with rfl | ha
        · refine Or.inl ⟨zEn, hzEn, hzx.trans h1, hzy.trans h2, ?_⟩
          omega
        · exact Or.inr ⟨a, List.mem_append_left _ ha, h1, h2, h3⟩
    · intro z hz a ha
      rcases List.mem_append.mp ha with hmm | hmm
      · exact inv.doneLe z hz a (List.mem_cons_of_mem _ hmm)
      · have h0 := inv.doneLe z hz en (List.mem_cons_self _ _)
        rw [hnewsElen a hmm]
        omega
    · rcases inv.startCov with ⟨z, hz, h⟩ | ⟨a, ha, h1, h2, h3⟩
      · exact Or.inl ⟨z, hz, h⟩
      · rcases List.mem_cons.mp ha with rfl | ha
        · refine Or.inl ⟨zEn, hzEn, hzx.trans h1, hzy.trans h2, ?_⟩
          omega
        · exact Or.inr ⟨a, List.mem_append_left _ ha, h1, h2, h3⟩
    · exact inv.endNotDone
  · -- fresh coordinates: record en at its level in the ghost list
    refine ⟨(en.cell.x, en.cell.y, elen en) :: D, ?_⟩
    constructor
    · exact hwalks'
    · exact hsorted'
    · exact hheadBound'
    · intro y x hvx
      rcases (hexp.marks y x).mp hvx with hold | hnew
      · rcases inv.markedCov y x hold with ⟨z, hz, h1, h2⟩ | ⟨a, ha, h1, h2⟩
        · exact Or.inl ⟨z, List.mem_cons_of_mem _ hz, h1, h2⟩
        · rcases List.mem_cons.mp ha with rfl | ha
          · exact Or.inl ⟨_, List.mem_cons_self _ _, h1, h2⟩
          · exact Or.inr ⟨a, List.mem_append_left _ ha, h1, h2⟩
      · obtain ⟨a, ha, hco⟩ := List.mem_map.mp hnew
        refine Or.inr ⟨a, List.mem_append_right _ ha, ?_, ?_⟩
        · exact congrArg Prod.fst hco
        · exact congrArg Prod.snd hco
    · intro z hz c hcx hcy d n hn hw
      rcases List.mem_cons.mp hz with rfl | hzD
      · have hcx' : c.x = en.cell.x := hcx
        have hcy' : c.y = en.cell.y := hcy
        rw [getNextCell_congr hcx' hcy' d] at hn
        rcases hexp.coverage d (mem_allDirections d) n hn hw with hold | hnew
        · rcases inv.markedCov n.y n.x hold with ⟨z', hz', h1, h2⟩ | ⟨a, ha, h1, h2⟩
          · refine Or.inl ⟨z', List.mem_cons_of_mem _ hz', h1, h2, ?_⟩
            have hb := inv.doneLe z' hz' en (List.mem_cons_self _ _)
            exact le_trans hb (Nat.le_succ _)
          · rcases List.mem_cons.mp ha with rfl | ha
            · exact Or.inl ⟨_, List.mem_cons_self _ _, h1, h2, Nat.le_succ _⟩
            · exact Or.inr ⟨a, List.mem_append_left _ ha, h1, h2,
                hb1 a (List.mem_cons_of_mem _ ha)⟩
        · obtain ⟨a, ha, hco⟩ := List.mem_map.mp hnew
          refine Or.inr ⟨a, List.mem_append_right _ ha, ?_, ?_, ?_⟩
          · exact congrArg Prod.fst hco
          · exact congrArg Prod.snd hco
          · rw [hnewsElen a ha]
      · rcases inv.doneClosure z hzD c hcx hcy d n hn hw with
          ⟨z', hz', h1, h2, h3⟩ | ⟨a, ha, h1, h2, h3⟩
        · exact Or.inl ⟨z', List.mem_cons_of_mem _ hz', h1, h2, h3⟩
        · rcases List.mem_cons.mp ha with rfl | ha
          · exact Or.inl ⟨_, List.mem_cons_self _ _, h1, h2, h3⟩
          · exact Or.inr ⟨a, List.mem_append_left _ ha, h1, h2, h3⟩
    · intro z hz a ha
      rcases List.mem_cons.mp hz with rfl | hzD
      · show elen en ≤ elen a
        rcases List.mem_append.mp ha with hmm | hmm
        · exact hheadmin a (List.mem_cons_of_mem _ hmm)
        · rw [hnewsElen a hmm]; omega
      · rcases List.mem_append.mp ha with hmm | hmm
        · exact inv.doneLe z hzD a (List.mem_cons_of_mem _ hmm)
        · have h0 := inv.doneLe z hzD en (List.mem_cons_self _ _)
          rw [hnewsElen a hmm]
          omega
    · rcases inv.startCov with ⟨z, hz, h⟩ | ⟨a, ha, h1, h2, h3⟩
      · exact Or.inl ⟨z, List.mem_cons_of_mem _ hz, h⟩
      · rcases List.mem_cons.mp ha with rfl | ha
        · exact Or.inl ⟨_, List.mem_cons_self _ _, h1, h2, h3⟩
        · exact Or.inr ⟨a, List.mem_append_left _ ha, h1, h2, h3⟩
    · intro z hz
      rcases List.mem_cons.mp hz with rfl | hzD
      · intro hco
        exact hnotend ⟨hco.1, hco.2⟩
      · exact inv.endNotDone z hzD

theorem bfsAux_nil (grid : List (List Cell)) (e : Cell) (mk : MoveKeys) (fuel : Nat)
    (v : List (List Bool)) (el dl : List (Nat × Nat)) :
    bfsAux grid e mk (fuel + 1) [] v el dl = some (.noPath, el, dl) := rfl

theorem bfsAux_cons_found (grid : List (List Cell)) (e : Cell) (mk : MoveKeys) (fuel : Nat)
    (en : Entry) (rest : List Entry) (v : List (List Bool)) (el dl : List (Nat × Nat))
    (h : en.cell.x = e.x ∧ en.cell.y = e.y) :
    bfsAux grid e mk (fuel + 1) (en :: rest) v el dl =
      some (.found en.path en.moves, el, dl ++ [(en.cell.x, en.cell.y)]) := by
  simp [bfsAux, h]

theorem bfsAux_cons_step (grid : List (List Cell)) (e : Cell) (mk : MoveKeys) (fuel : Nat)
    (en : Entry) (rest : List Entry) (v : List (List Bool)) (el dl : List (Nat × Nat))
    (h : ¬(en.cell.x = e.x ∧ en.cell.y = e.y)) :
    bfsAux grid e mk (fuel + 1) (en :: rest) v el dl =
      bfsAux grid e mk fuel
        (List.foldl (pushOne grid mk en) (rest, v, el) allDirections).1
        (List.foldl (pushOne grid mk en) (rest, v, el) allDirections).2.1
        (List.foldl (pushOne grid mk en) (rest, v, el) allDirections).2.2
        (dl ++ [(en.cell.x, en.cell.y)]) := by
  simp [bfsAux, h]

/-- The solver's success contract: the returned path is a walk from the
start ending on the end's coordinates at a cell of the grid, the move list
matches it step by step, and no walk from the start to the end's
coordinates is shorter. -/
def GoodResult (grid : List (List Cell)) (s e : Cell) (mk : MoveKeys)
    (p : List Cell) (m : List String) : Prop :=
  WalkFrom grid s p ∧
  (∃ c, p.getLast? = some c ∧ c.x = e.x ∧ c.y = e.y ∧ InGrid grid c) ∧
  MovesFor grid mk p m ∧
  (∀ p', WalkFrom grid s p' → EndsAt p' e → p.length ≤ p'.length)

/-- Main loop lemma: from any state satisfying the invariant, with enough
fuel, the loop returns; a `found` result satisfies the success contract and
a `noPath` result means the end is unreachable. -/
theorem bfsAux_spec (grid : List (List Cell)) (s e : Cell) (mk : MoveKeys) :
    ∀ (fuel : Nat) (q : List Entry) (v : List (List Bool)) (D : List (Nat × Nat × Nat))
      (el dl : List (Nat × Nat)),
      BfsInv grid s e mk q v D → VFits grid v →
      q.length + countUnvisited v + 1 ≤ fuel →
      ∃ res, bfsAux grid e mk fuel q v el dl = some res ∧
        ((∃ p m, res.1 = SolveOutcome.found p m ∧ GoodResult grid s e mk p m) ∨
          (res.1 = SolveOutcome.noPath ∧ ¬ Reaches grid s e)) := by
  intro fuel
  induction fuel with
  | zero =>
    intro q v D el dl _ _ hf
    omega
  | succ fuel ih =>
    intro q v D el dl inv hfit hf
    cases q with
    | nil =>
      refine ⟨(.noPath, el, dl), bfsAux_nil grid e mk fuel v el dl, Or.inr ⟨rfl, ?_⟩⟩
      rintro ⟨p, hwp, c0, hlast, hcx, hcy⟩
      rcases cover_walk inv hwp with ⟨en, hen, _⟩ | ⟨z, hz, lc, hlast', hzx, hzy⟩
      · exact absurd hen (List.not_mem_nil en)
      · rw [hlast] at hlast'
        obtain rfl : c0 = lc := Option.some_inj.mp hlast'
        exact inv.endNotDone z hz ⟨hzx.trans hcx, hzy.trans hcy⟩
    | cons en rest =>
      by_cases hend : en.cell.x = e.x ∧ en.cell.y = e.y
      · refine ⟨(.found en.path en.moves, el, dl ++ [(en.cell.x, en.cell.y)]),
          bfsAux_cons_found grid e mk fuel en rest v el dl hend,
          Or.inl ⟨en.path, en.moves, rfl, ?_⟩⟩
        obtain ⟨hwalk, hlast, hmoves, hgrid⟩ := inv.walks en (List.mem_cons_self _ _)
        refine ⟨hwalk, ⟨en.cell, hlast, hend.1, hend.2, hgrid⟩, hmoves, ?_⟩
        intro p' hw' hE
        obtain ⟨c0, hlast0, hcx, hcy⟩ := hE
        rcases cover_walk inv hw' with ⟨en', hen', hle⟩ | ⟨z, hz, lc, hlast', hzx, hzy⟩
        · have h1 : elen en ≤ elen en' := by
            rcases List.mem_cons.mp hen' with rfl | ha
            · exact le_refl _
            · exact (List.pairwise_cons.mp inv.sorted).1 en' ha
          have h2 : 0 < en.path.length := walkFrom_length_pos hwalk
          simp only [elen] at h1 hle
          omega
        · rw [hlast0] at hlast'
          obtain rfl : c0 = lc := Option.some_inj.mp hlast'
          exact absurd ⟨hzx.trans hcx, hzy.trans hcy⟩ (inv.endNotDone z hz)
      · obtain ⟨news, hexp⟩ := foldPush_spec grid mk en allDirections rest v el hfit
        obtain ⟨D', inv'⟩ := bfsInv_step inv hend hexp
        have hfit' : VFits grid (List.foldl (pushOne grid mk en) (rest, v, el)
            allDirections).2.1 := vfits_of_dims hfit hexp.dims
        have hq' : (List.foldl (pushOne grid mk en) (rest, v, el) allDirections).1 =
            rest ++ news := hexp.queueEq
        have hcount := hexp.countEq
        have hf' : (List.foldl (pushOne grid mk en) (rest, v, el) allDirections).1.length +
            countUnvisited (List.foldl (pushOne grid mk en) (rest, v, el)
              allDirections).2.1 + 1 ≤ fuel := by
          rw [hq']
          simp only [List.length_append, List.length_cons] at hf ⊢
          omega
        rw [← hq'] at inv'
        obtain ⟨res, hres, hprop⟩ := ih
          (List.foldl (pushOne grid mk en) (rest, v, el) allDirections).1
          (List.foldl (pushOne grid mk en) (rest, v, el) allDirections).2.1 D'
          (List.foldl (pushOne grid mk en) (rest, v, el) allDirections).2.2
          (dl ++ [(en.cell.x, en.cell.y)]) inv' hfit' hf'
        refine ⟨res, ?_, hprop⟩
        rw [bfsAux_cons_step grid e mk fuel en rest v el dl hend]
        exact hres

theorem inGrid_of_mem_flatten {grid : List (List Cell)} {c : Cell}
    (h : c ∈ grid.flatten) : InGrid grid c := by
  obtain ⟨row, hrow, hc⟩ := List.mem_flatten.mp h
  obtain ⟨y, hy⟩ := List.mem_iff_getElem?.mp hrow
  obtain ⟨x, hx⟩ := List.mem_iff_getElem?.mp hc
  exact ⟨y, x, by simp [getCell, hy, hx]⟩

theorem findStartCell_inGrid {grid : List (List Cell)} {s : Cell}
    (h : findStartCell grid = some s) : InGrid grid s :=
  inGrid_of_mem_flatten (List.mem_of_find?_eq_some h)

theorem findEndCell_inGrid {grid : List (List Cell)} {e : Cell}
    (h : findEndCell grid = some e) : InGrid grid e :=
  inGrid_of_mem_flatten (List.mem_of_find?_eq_some h)

/-- The initial solver state satisfies the invariant: the queue holds the
single entry for the start, nothing is visited, nothing is expanded. -/
theorem bfsInv_init (grid : List (List Cell)) (s e : Cell) (mk : MoveKeys)
    (maze : List String) (hsin : InGrid grid s) :
    BfsInv grid s e mk [⟨s, [s], []⟩] (mkVisited maze) [] := by
  constructor
  · intro en hen
    rcases List.mem_cons.mp hen with rfl | h
    · exact ⟨walkFrom_single grid s, rfl, MovesFor.single s, hsin⟩
    · exact absurd h (List.not_mem_nil en)
  · exact List.pairwise_singleton _ _
  · intro h hh en hen
    obtain rfl : (⟨s, [s], []⟩ : Entry) = h := Option.some_inj.mp hh
    rcases List.mem_cons.mp hen with rfl | hmm
    · omega
    · exact absurd hmm (List.not_mem_nil en)
  · intro y x hvx
    rw [getV_mkVisited] at hvx
    cases hvx
  · intro z hz
    exact absurd hz (List.not_mem_nil z)
  · intro z hz
    exact absurd hz (List.not_mem_nil z)
  · exact Or.inr ⟨⟨s, [s], []⟩, List.mem_cons_self _ _, rfl, rfl, rfl⟩
  · intro z hz
    exact absurd hz (List.not_mem_nil z)

/-- Full-solver correctness on a grid built from the maze text: the run
returns, and the outcome is a correct success or a correct failure. -/
theorem solveMazeFull_spec (maze : List String) (syms : SymbolConfig) (mk : MoveKeys)
    (grid : List (List Cell)) (s e : Cell)
    (hg : grid = buildGrid maze syms)
    (hs : findStartCell grid = some s) (he : findEndCell grid = some e) :
    ∃ res, solveMazeFull maze grid (some s) (some e) mk = some res ∧
      ((∃ p m, res.1 = SolveOutcome.found p m ∧ GoodResult grid s e mk p m) ∨
        (res.1 = SolveOutcome.noPath ∧ ¬ Reaches grid s e)) := by
  have hfit : VFits grid (mkVisited maze) := by
    rw [hg]; exact vfits_buildGrid maze syms
  have hinv := bfsInv_init grid s e mk maze (findStartCell_inGrid hs)
  have hfuel : ([⟨s, [s], []⟩] : List Entry).length + countUnvisited (mkVisited maze) + 1 ≤
      totalFuel maze := by
    rw [countUnvisited_mkVisited]
    simp only [List.length_singleton, totalFuel]
    omega
  obtain ⟨res, hres, hprop⟩ := bfsAux_spec grid s e mk (totalFuel maze)
    [⟨s, [s], []⟩] (mkVisited maze) [] [(s.x, s.y)] [] hinv hfit hfuel
  exact ⟨res, hres, hprop⟩

/-- In a built grid, cells are identified by their coordinates. -/
theorem built_coords_inj {maze : List String} {syms : SymbolConfig}
    {grid : List (List Cell)} (hg : grid = buildGrid maze syms) {e c : Cell}
    (hein : InGrid grid e) (hcin : InGrid grid c)
    (hx : c.x = e.x) (hy : c.y = e.y) : c = e := by
  subst hg
  have h1 := inGrid_buildGrid_self hcin
  have h2 := inGrid_buildGrid_self hein
  rw [hx, hy] at h1
  exact Option.some_inj.mp (h1.symm.trans h2)

/-- Executable test for `Step`. -/
def stepB (grid : List (List Cell)) (c n : Cell) : Bool :=
  allDirections.any (fun d => getNextCell grid c d == some n && !(n.type == CellType.wall))

theorem stepB_iff (grid : List (List Cell)) (c n : Cell) :
    stepB grid c n = true ↔ Step grid c n := by
  simp only [stepB, List.any_eq_true, Bool.and_eq_true, beq_iff_eq, Bool.not_eq_true',
    beq_eq_false_iff_ne, Step]
  constructor
  · rintro ⟨d, _, h1, h2⟩
    exact ⟨d, h1, h2⟩
  · rintro ⟨d, h1, h2⟩
    exact ⟨d, mem_allDirections d, h1, h2⟩

/-- Executable test for a chain of valid steps. -/
def chainB (grid : List (List Cell)) : Cell → List Cell → Bool
  | _, [] => true
  | c, n :: p => stepB grid c n && chainB grid n p

theorem chainB_iff (grid : List (List Cell)) :
    ∀ (p : List Cell) (c : Cell), chainB grid c p = true ↔ List.Chain (Step grid) c p := by
  intro p
  induction p with
  | nil => intro c; simp [chainB]
  | cons n t ih =>
    intro c
    simp only [chainB, Bool.and_eq_true, stepB_iff, List.chain_cons, ih]

/-- Executable test for `WalkFrom`. -/
def walkB (grid : List (List Cell)) (s : Cell) (p : List Cell) : Bool :=
  match p with
  | [] => false
  | a :: t => (a == s) && chainB grid a t

theorem walkB_iff (grid : List (List Cell)) (s : Cell) (p : List Cell) :
    walkB grid s p = true ↔ WalkFrom grid s p := by
  cases p with
  | nil =>
    simp only [walkB, WalkFrom]
    constructor
    · intro h; cases h
    · rintro ⟨h, _⟩; cases h
  | cons a t =>
    simp only [walkB, Bool.and_eq_true, beq_iff_eq, chainB_iff, WalkFrom, List.head?_cons,
      Option.some_inj]
    constructor
    · rintro ⟨rfl, h⟩
      exact ⟨rfl, h⟩
    · rintro ⟨rfl, h⟩
      exact ⟨rfl, h⟩

instance (grid : List (List Cell)) (s : Cell) (p : List Cell) :
    Decidable (WalkFrom grid s p) :=
  decidable_of_iff (walkB grid s p = true) (walkB_iff grid s p)

/-- Default symbol configuration of the component. -/
def exSyms : SymbolConfig := ⟨"#", ".", "P", "E"⟩

/-- Default move-key bindings of the component. -/
def exKeys : MoveKeys := ⟨"w", "s", "a", "d"⟩

/-- A one-row maze where the end is reachable: `P.E`. -/
def exMaze1 : List String := ["P.E"]

def exGrid1 : List (List Cell) := buildGrid exMaze1 exSyms

/-- A one-row maze where a wall blocks the end: `P#E`. -/
def exMaze2 : List String := ["P#E"]

def exGrid2 : List (List Cell) := buildGrid exMaze2 exSyms

/-- C1: for every grid built from the maze text in which the designated End
is reachable from the designated Start by 4-directional moves through
non-wall cells, `solveMaze` returns a found path that is a walk from Start
ending on End's coordinates, and its edge count `p.length - 1` is the true
shortest-path graph distance between Start and End. -/
theorem claim1_solve_shortest (maze : List String) (syms : SymbolConfig) (mk : MoveKeys)
    (grid : List (List Cell)) (s e : Cell)
    (hg : grid = buildGrid maze syms)
    (hs : findStartCell grid = some s) (he : findEndCell grid = some e)
    (hre : Reaches grid s e) :
    ∃ p m, solveMaze maze grid (some s) (some e) mk = some (SolveOutcome.found p m) ∧
      WalkFrom grid s p ∧ EndsAt p e ∧ IsShortestDist grid s e (p.length - 1) := by
  obtain ⟨res, hres, hprop⟩ := solveMazeFull_spec maze syms mk grid s e hg hs he
  rcases hprop with ⟨p, m, hfound, hgood⟩ | ⟨hnp, hnr⟩
  · refine ⟨p, m, ?_, hgood.1, ?_, ?_⟩
    · simp [solveMaze, hres, hfound]
    · obtain ⟨c, h1, h2, h3, _⟩ := hgood.2.1
      exact ⟨c, h1, h2, h3⟩
    · have hpos := walkFrom_length_pos hgood.1
      constructor
      · refine ⟨p, hgood.1, ?_, by omega⟩
        obtain ⟨c, h1, h2, h3, _⟩ := hgood.2.1
        exact ⟨c, h1, h2, h3⟩
      · intro p' hw' he'
        have := hgood.2.2.2 p' hw' he'
        omega
  · exact absurd hre hnr

/-- Witness for C1 on the concrete maze `P.E`. -/
theorem claim1_witness :
    ∃ p m, solveMaze exMaze1 exGrid1 (some ⟨0, 0, CellType.start⟩)
        (some ⟨2, 0, CellType.finish⟩) exKeys = some (SolveOutcome.found p m) ∧
      WalkFrom exGrid1 ⟨0, 0, CellType.start⟩ p ∧ EndsAt p ⟨2, 0, CellType.finish⟩ ∧
      IsShortestDist exGrid1 ⟨0, 0, CellType.start⟩ ⟨2, 0, CellType.finish⟩ (p.length - 1) :=
  claim1_solve_shortest exMaze1 exSyms exKeys exGrid1 ⟨0, 0, CellType.start⟩
    ⟨2, 0, CellType.finish⟩ rfl (by decide) (by decide)
    ⟨[⟨0, 0, CellType.start⟩, ⟨1, 0, CellType.path⟩, ⟨2, 0, CellType.finish⟩],
      by decide, ⟨⟨2, 0, CellType.finish⟩, by decide, rfl, rfl⟩⟩

/-- Occurrence count of a coordinate in a log. -/
def ccount (z : Nat × Nat) (l : List (Nat × Nat)) : Nat :=
  (l.filter (fun w => w = z)).length

theorem ccount_nil (z : Nat × Nat) : ccount z [] = 0 := rfl

theorem ccount_cons (z a : Nat × Nat) (l : List (Nat × Nat)) :
    ccount z (a :: l) = ccount z l + if a = z then 1 else 0 := by
  by_cases h : a = z <;> simp [ccount, List.filter_cons, h]

theorem ccount_append (z : Nat × Nat) (l1 l2 : List (Nat × Nat)) :
    ccount z (l1 ++ l2) = ccount z l1 + ccount z l2 := by
  simp [ccount, List.filter_append]

theorem ccount_perm {l1 l2 : List (Nat × Nat)} (h : l1.Perm l2) (z : Nat × Nat) :
    ccount z l1 = ccount z l2 :=
  (h.filter _).length_eq

theorem ccount_eq_zero {z : Nat × Nat} {l : List (Nat × Nat)} :
    ccount z l = 0 ↔ z ∉ l := by
  induction l with
  | nil => simp [ccount_nil]
  | cons a t ih =>
    rw [ccount_cons]
    by_cases h : a = z
    · subst h
      simp
    · have hzz : ¬z = a := fun hh => h hh.symm
      simp [h, ih, hzz]

theorem ccount_le_one_of_nodup {l : List (Nat × Nat)} (h : l.Nodup) (z : Nat × Nat) :
    ccount z l ≤ 1 := by
  induction l with
  | nil => simp [ccount_nil]
  | cons a t ih =>
    obtain ⟨ha, ht⟩ := List.nodup_cons.mp h
    rw [ccount_cons]
    by_cases hz : a = z
    · subst hz
      rw [ccount_eq_zero.mpr ha]
      simp
    · have := ih ht
      simp [hz]
      omega

/-- Log invariant of the solver loop.  Every coordinate other than the
start's is enqueued at most once (it is marked visited when enqueued); the
start's coordinate is enqueued unmarked at the outset and can be enqueued
at most once more; dequeues never exceed enqueues per coordinate. -/
theorem bfsAux_log_spec (grid : List (List Cell)) (e : Cell) (mk : MoveKeys)
    (s0 : Nat × Nat) :
    ∀ (fuel : Nat) (q : List Entry) (v : List (List Bool)) (el dl : List (Nat × Nat)),
      VFits grid v →
      (∀ z : Nat × Nat, ccount z el ≤ if z = s0 then 2 else 1) →
      (∀ y x, getV v y x = true → ((x, y) : Nat × Nat) ∈ el) →
      (∀ z ∈ el, z ≠ s0 → getV v z.2 z.1 = true) →
      (ccount s0 el = 2 → getV v s0.2 s0.1 = true) →
      el.Perm (dl ++ q.map ecoords) →
      ∀ r el' dl', bfsAux grid e mk fuel q v el dl = some (r, el', dl') →
        (∀ z, ccount z el' ≤ if z = s0 then 2 else 1) ∧
        (∀ z, ccount z dl' ≤ ccount z el') := by
  intro fuel
  induction fuel with
  | zero =>
    intro q v el dl _ _ _ _ _ _ r el' dl' h
    cases h
  | succ fuel ih =>
    intro q v el dl hfit hcnt hmarked hmem2 hs2 hperm r el' dl' hrun
    cases q with
    | nil =>
      rw [bfsAux_nil] at hrun
      have h := Option.some_inj.mp hrun
      rw [Prod.mk.injEq, Prod.mk.injEq] at h
      obtain ⟨-, h2, h3⟩ := h
      subst h2
      subst h3
      simp only [List.map_nil, List.append_nil] at hperm
      refine ⟨hcnt, fun z => ?_⟩
      rw [ccount_perm hperm z]
    | cons en rest =>
      by_cases hend : en.cell.x = e.x ∧ en.cell.y = e.y
      · rw [bfsAux_cons_found grid e mk fuel en rest v el dl hend] at hrun
        have h := Option.some_inj.mp hrun
        rw [Prod.mk.injEq, Prod.mk.injEq] at h
        obtain ⟨-, h2, h3⟩ := h
        subst h2
        subst h3
        refine ⟨hcnt, fun z => ?_⟩
        have hc := ccount_perm hperm z
        rw [ccount_append, List.map_cons, ccount_cons] at hc
        rw [ccount_append, ccount_cons, ccount_nil]
        simp only [ecoords] at hc
        omega
      · rw [bfsAux_cons_step grid e mk fuel en rest v el dl hend] at hrun
        obtain ⟨news, hexp⟩ := foldPush_spec grid mk en allDirections rest v el hfit
        rw [hexp.logEq] at hrun
        have hfit' := vfits_of_dims hfit hexp.dims
        have hcnt' : ∀ z : Nat × Nat, ccount z (el ++ news.map ecoords) ≤
            if z = s0 then 2 else 1 := by
          intro z
          rw [ccount_append]
          by_cases hzin : z ∈ news.map ecoords
          · have hnc1 : ccount z (news.map ecoords) ≤ 1 :=
              ccount_le_one_of_nodup hexp.nodup z
            obtain ⟨a, ha, hco⟩ := List.mem_map.mp hzin
            obtain ⟨d, -, n, hn, hw, hv, he'⟩ := hexp.newsSpec a ha
            have hzv : getV v z.2 z.1 = false := by
              subst he'
              simp only [ecoords] at hco
              rw [← hco]
              exact hv
            by_cases hzs : z = s0
            · subst hzs
              have hb := hcnt z
              rw [if_pos rfl] at hb
              have hne2 : ccount z el ≠ 2 := by
                intro h2
                rw [hs2 h2] at hzv
                cases hzv
              rw [if_pos rfl]
              omega
            · have h0 : ccount z el = 0 := by
                rw [ccount_eq_zero]
                intro hmem
                rw [hmem2 z hmem hzs] at hzv
                cases hzv
              rw [if_neg hzs, h0]
              omega
          · have h0 : ccount z (news.map ecoords) = 0 := ccount_eq_zero.mpr hzin
            rw [h0]
            simpa using hcnt z
        have hmarked' : ∀ y x,
            getV (List.foldl (pushOne grid mk en) (rest, v, el) allDirections).2.1 y x =
              true → ((x, y) : Nat × Nat) ∈ el ++ news.map ecoords := by
          intro y x hvx
          rcases (hexp.marks y x).mp hvx with h | h
          · exact List.mem_append_left _ (hmarked y x h)
          · exact List.mem_append_right _ h
        have hmem2' : ∀ z ∈ el ++ news.map ecoords, z ≠ s0 →
            getV (List.foldl (pushOne grid mk en) (rest, v, el) allDirections).2.1
              z.2 z.1 = true := by
          intro z hz hzs
          rcases List.mem_append.mp hz with hz | hz
          · exact (hexp.marks z.2 z.1).mpr (Or.inl (hmem2 z hz hzs))
          · refine (hexp.marks z.2 z.1).mpr (Or.inr ?_)
            simpa using hz
        have hs2' : ccount s0 (el ++ news.map ecoords) = 2 →
            getV (List.foldl (pushOne grid mk en) (rest, v, el) allDirections).2.1
              s0.2 s0.1 = true := by
          intro h2
          by_cases hs0in : s0 ∈ news.map ecoords
          · refine (hexp.marks s0.2 s0.1).mpr (Or.inr ?_)
            simpa using hs0in
          · have h0 : ccount s0 (news.map ecoords) = 0 := ccount_eq_zero.mpr hs0in
            rw [ccount_append, h0] at h2
            exact (hexp.marks s0.2 s0.1).mpr (Or.inl (hs2 (by omega)))
        have hperm' : (el ++ news.map ecoords).Perm
            ((dl ++ [(en.cell.x, en.cell.y)]) ++
              ((List.foldl (pushOne grid mk en) (rest, v, el) allDirections).1.map
                ecoords)) := by
          rw [hexp.queueEq, List.map_append]
          have hst : (dl ++ [(en.cell.x, en.cell.y)]) ++
              (rest.map ecoords ++ news.map ecoords) =
              (dl ++ ((en.cell.x, en.cell.y) :: rest.map ecoords)) ++ news.map ecoords := by
            simp
          rw [hst]
          have h1 : el.Perm (dl ++ ((en.cell.x, en.cell.y) :: rest.map ecoords)) := by
            have h2 := hperm
            rwa [List.map_cons] at h2
          exact h1.append_right _
        exact ih (List.foldl (pushOne grid mk en) (rest, v, el) allDirections).1
          (List.foldl (pushOne grid mk en) (rest, v, el) allDirections).2.1
          (el ++ news.map ecoords) (dl ++ [(en.cell.x, en.cell.y)]) hfit' hcnt' hmarked'
          hmem2' hs2' hperm' r el' dl' hrun

/-- C2 (amended): during a run of `solveMaze` on a built grid, every cell
other than the designated Start is marked visited at the moment it is
enqueued and is enqueued — hence dequeued and expanded — at most once; the
Start cell itself is enqueued unmarked at the outset and may be enqueued,
dequeued and expanded a second time, because the source never marks the
start visited when seeding the queue. -/
theorem claim2_enqueue_bounds (maze : List String) (syms : SymbolConfig) (mk : MoveKeys)
    (grid : List (List Cell)) (s e : Cell)
    (hg : grid = buildGrid maze syms)
    (hs : findStartCell grid = some s) :
    ∀ r el dl, solveMazeFull maze grid (some s) (some e) mk = some (r, el, dl) →
      ∀ z : Nat × Nat,
        (z ≠ (s.x, s.y) → ccount z el ≤ 1 ∧ ccount z dl ≤ 1) ∧
        ccount z el ≤ 2 ∧ ccount z dl ≤ 2 := by
  intro r el dl hrun z
  have hfit : VFits grid (mkVisited maze) := by
    rw [hg]; exact vfits_buildGrid maze syms
  have hcnt0 : ∀ w : Nat × Nat, ccount w [(s.x, s.y)] ≤
      if w = (s.x, s.y) then 2 else 1 := by
    intro w
    rw [ccount_cons, ccount_nil]
    by_cases hw : (s.x, s.y) = w
    · rw [if_pos hw, if_pos hw.symm]
      omega
    · rw [if_neg hw, if_neg (fun hh => hw hh.symm)]
      omega
  have hmarked0 : ∀ y x, getV (mkVisited maze) y x = true →
      ((x, y) : Nat × Nat) ∈ [(s.x, s.y)] := by
    intro y x h
    rw [getV_mkVisited] at h
    cases h
  have hmem20 : ∀ w ∈ ([(s.x, s.y)] : List (Nat × Nat)), w ≠ (s.x, s.y) →
      getV (mkVisited maze) w.2 w.1 = true := by
    intro w hw hne
    rcases List.mem_cons.mp hw with rfl | hw
    · exact absurd rfl hne
    · exact absurd hw (List.not_mem_nil w)
  have hs20 : ccount (s.x, s.y) [(s.x, s.y)] = 2 →
      getV (mkVisited maze) s.y s.x = true := by
    intro h
    rw [ccount_cons, ccount_nil, if_pos rfl] at h
    cases h
  have hperm0 : ([(s.x, s.y)] : List (Nat × Nat)).Perm
      ([] ++ ([⟨s, [s], []⟩] : List Entry).map ecoords) := by
    simp [ecoords]
  have hlog := bfsAux_log_spec grid e mk (s.x, s.y) (totalFuel maze) [⟨s, [s], []⟩]
    (mkVisited maze) [(s.x, s.y)] [] hfit hcnt0 hmarked0 hmem20 hs20 hperm0 r el dl hrun
  obtain ⟨hb1, hb2⟩ := hlog
  refine ⟨fun hne => ?_, ?_, ?_⟩
  · have h1 := hb1 z
    rw [if_neg hne] at h1
    exact ⟨h1, le_trans (hb2 z) h1⟩
  · have h1 := hb1 z
    by_cases hz : z = (s.x, s.y)
    · rwa [if_pos hz] at h1
    · rw [if_neg hz] at h1
      omega
  · have h1 := hb1 z
    have h2 := hb2 z
    by_cases hz : z = (s.x, s.y)
    · rw [if_pos hz] at h1
      omega
    · rw [if_neg hz] at h1
      omega

/-- Witness for the amended C2 on the maze `P.E`: the path cell `(1, 0)`
is enqueued and dequeued exactly once, and no coordinate exceeds the
bounds. -/
theorem claim2_witness :
    ((1, 0) ≠ ((0 : Nat), (0 : Nat)) →
      ccount (1, 0) [(0, 0), (1, 0), (0, 0), (2, 0)] ≤ 1 ∧
      ccount (1, 0) [(0, 0), (1, 0), (0, 0), (2, 0)] ≤ 1) ∧
    ccount (1, 0) [(0, 0), (1, 0), (0, 0), (2, 0)] ≤ 2 ∧
    ccount (1, 0) [(0, 0), (1, 0), (0, 0), (2, 0)] ≤ 2 :=
  claim2_enqueue_bounds exMaze1 exSyms exKeys exGrid1 ⟨0, 0, CellType.start⟩
    ⟨2, 0, CellType.finish⟩ rfl (by decide)
    (SolveOutcome.found
      [⟨0, 0, CellType.start⟩, ⟨1, 0, CellType.path⟩, ⟨2, 0, CellType.finish⟩] ["d", "d"])
    [(0, 0), (1, 0), (0, 0), (2, 0)] [(0, 0), (1, 0), (0, 0), (2, 0)] (by decide) (1, 0)

/-- Counterexample to C2 as stated: on the maze `P.E` the Start cell
`(0, 0)` is enqueued twice (it is enqueued unmarked at the outset, and
re-enqueued from its neighbour), and correspondingly dequeued and expanded
twice, as the enqueue and dequeue logs show. -/
theorem claim2_counterexample :
    solveMazeFull exMaze1 exGrid1 (some ⟨0, 0, CellType.start⟩)
        (some ⟨2, 0, CellType.finish⟩) exKeys =
      some (SolveOutcome.found
        [⟨0, 0, CellType.start⟩, ⟨1, 0, CellType.path⟩, ⟨2, 0, CellType.finish⟩] ["d", "d"],
        [(0, 0), (1, 0), (0, 0), (2, 0)], [(0, 0), (1, 0), (0, 0), (2, 0)]) ∧
    ccount (0, 0) [(0, 0), (1, 0), (0, 0), (2, 0)] = 2 := by
  constructor
  · decide
  · decide

/-- C3: when the designated Start or End cell is absent, `solveMaze`
refuses the operation without running any search (it signals the missing
endpoint) and `solveStep` leaves the component state — grid, cursor and
solution string included — unchanged. -/
theorem claim3_missing_endpoint (st : MazeState)
    (h : st.startCell = none ∨ st.endCell = none) :
    solveMaze st.maze st.mazeGrid st.startCell st.endCell st.moveKeys =
      some SolveOutcome.missingEndpoint ∧ solveStep st = st := by
  have hout : solveMaze st.maze st.mazeGrid st.startCell st.endCell st.moveKeys =
      some SolveOutcome.missingEndpoint := by
    rcases h with h | h
    · rw [h]
      cases st.endCell <;> rfl
    · rw [h]
      cases st.startCell <;> rfl
  refine ⟨hout, ?_⟩
  simp [solveStep, hout]

/-- Witness for C3: a state whose maze has cells but whose End is absent. -/
theorem claim3_witness :
    solveMaze exMaze1 exGrid1 (some ⟨0, 0, CellType.start⟩) none exKeys =
      some SolveOutcome.missingEndpoint ∧
    solveStep ⟨exMaze1, exGrid1, some ⟨0, 0, CellType.start⟩, none, none, "", false, exKeys⟩ =
      ⟨exMaze1, exGrid1, some ⟨0, 0, CellType.start⟩, none, none, "", false, exKeys⟩ :=
  claim3_missing_endpoint
    ⟨exMaze1, exGrid1, some ⟨0, 0, CellType.start⟩, none, none, "", false, exKeys⟩
    (Or.inr rfl)

/-- Test that every direction out of a cell is blocked (out of bounds or a
wall). -/
def stuckB (grid : List (List Cell)) (c : Cell) : Bool :=
  allDirections.all (fun d =>
    match getNextCell grid c d with
    | none => true
    | some n => n.type == CellType.wall)

theorem not_step_of_stuckB {grid : List (List Cell)} {c : Cell}
    (h : stuckB grid c = true) : ∀ n, ¬ Step grid c n := by
  rintro n ⟨d, hn, hw⟩
  have hd := List.all_eq_true.mp h d (mem_allDirections d)
  rw [hn] at hd
  simp only [beq_iff_eq] at hd
  exact hw hd

theorem not_reaches_of_stuck {grid : List (List Cell)} {s e : Cell}
    (hne : ¬(s.x = e.x ∧ s.y = e.y)) (hstuck : ∀ n, ¬ Step grid s n) :
    ¬ Reaches grid s e := by
  rintro ⟨p, ⟨hhead, hchain⟩, c0, hlast, hcx, hcy⟩
  cases p with
  | nil => cases hhead
  | cons a t =>
    obtain rfl : s = a := by
      simp only [List.head?_cons, Option.some_inj] at hhead
      exact hhead.symm
    cases t with
    | nil =>
      simp only [List.getLast?_singleton, Option.some_inj] at hlast
      subst hlast
      exact hne ⟨hcx, hcy⟩
    | cons b t' =>
      have hstep : Step grid s b := (List.chain'_cons.mp hchain).1
      exact hstuck b hstep

/-- C4: on a built grid with Start and End present but End unreachable,
the solver's queue empties and `solveMaze` reports `NoPathFound`, and the
component state — grid, cursor position and solution string — is left
unchanged by the invocation. -/
theorem claim4_no_path (st : MazeState) (maze : List String) (syms : SymbolConfig)
    (s e : Cell)
    (hm : st.maze = maze) (hg : st.mazeGrid = buildGrid maze syms)
    (hs : findStartCell st.mazeGrid = some s) (he : findEndCell st.mazeGrid = some e)
    (hsc : st.startCell = some s) (hec : st.endCell = some e)
    (hnr : ¬ Reaches st.mazeGrid s e) :
    solveMaze st.maze st.mazeGrid st.startCell st.endCell st.moveKeys =
      some SolveOutcome.noPath ∧ solveStep st = st := by
  obtain ⟨res, hres, hprop⟩ :=
    solveMazeFull_spec maze syms st.moveKeys st.mazeGrid s e hg hs he
  rcases hprop with ⟨p, m, hfound, hgood⟩ | ⟨hnp, -⟩
  · exfalso
    obtain ⟨c, h1, h2, h3, -⟩ := hgood.2.1
    exact hnr ⟨p, hgood.1, c, h1, h2, h3⟩
  · have hsolve : solveMaze st.maze st.mazeGrid st.startCell st.endCell st.moveKeys =
        some SolveOutcome.noPath := by
      rw [hm, hsc, hec]
      simp [solveMaze, hres, hnp]
    refine ⟨hsolve, ?_⟩
    simp [solveStep, hsolve]

/-- Witness for C4 on the concrete maze `P#E`, where a wall separates
Start from End. -/
theorem claim4_witness :
    solveMaze exMaze2 exGrid2 (some ⟨0, 0, CellType.start⟩)
        (some ⟨2, 0, CellType.finish⟩) exKeys = some SolveOutcome.noPath ∧
    solveStep ⟨exMaze2, exGrid2, some ⟨0, 0, CellType.start⟩,
        some ⟨2, 0, CellType.finish⟩, none, "", false, exKeys⟩ =
      ⟨exMaze2, exGrid2, some ⟨0, 0, CellType.start⟩,
        some ⟨2, 0, CellType.finish⟩, none, "", false, exKeys⟩ :=
  claim4_no_path
    ⟨exMaze2, exGrid2, some ⟨0, 0, CellType.start⟩, some ⟨2, 0, CellType.finish⟩,
      none, "", false, exKeys⟩
    exMaze2 exSyms ⟨0, 0, CellType.start⟩ ⟨2, 0, CellType.finish⟩
    rfl rfl (by decide) (by decide) rfl rfl
    (not_reaches_of_stuck (by decide) (not_step_of_stuckB (by decide)))

theorem join_length (l : List String) :
    (String.join l).length = (l.map String.length).sum := by
  rw [String.join_eq]
  show (List.map String.data l).flatten.length = _
  rw [List.length_flatten, List.map_map]
  rfl

theorem sum_map_length_one {m : List String} (h : ∀ k ∈ m, k.length = 1) :
    (m.map String.length).sum = m.length := by
  induction m with
  | nil => rfl
  | cons a t ih =>
    simp only [List.map_cons, List.sum_cons, List.length_cons,
      h a (List.mem_cons_self _ _), ih (fun k hk => h k (List.mem_cons_of_mem _ hk))]
    omega

theorem movesFor_mem {grid : List (List Cell)} {mk : MoveKeys} {p : List Cell}
    {m : List String} (h : MovesFor grid mk p m) :
    ∀ k ∈ m, ∃ d, k = getKeyForDirection mk d := by
  induction h with
  | single c => intro k hk; exact absurd hk (List.not_mem_nil k)
  | step a b p k0 m d hab hk0 hrec ih =>
    intro k hk
    rcases List.mem_cons.mp hk with rfl | hk
    · exact ⟨d, hk0⟩
    · exact ih k hk

/-- C5: every successful solve returns one move entry per step of the
path, the `i`-th entry being the key bound to the direction taken from the
`i`-th path cell to the next; with single-character bindings the joined
solution string therefore has exactly one character per step. -/
theorem claim5_move_string (maze : List String) (syms : SymbolConfig) (mk : MoveKeys)
    (grid : List (List Cell)) (s e : Cell) (p : List Cell) (m : List String)
    (hg : grid = buildGrid maze syms)
    (hs : findStartCell grid = some s) (he : findEndCell grid = some e)
    (hrun : solveMaze maze grid (some s) (some e) mk = some (SolveOutcome.found p m)) :
    m.length + 1 = p.length ∧
    (∀ i a b k, p[i]? = some a → p[i + 1]? = some b → m[i]? = some k →
      ∃ d, getNextCell grid a d = some b ∧ k = getKeyForDirection mk d) ∧
    ((∀ d, (getKeyForDirection mk d).length = 1) →
      (String.join m).length + 1 = p.length) := by
  obtain ⟨res, hres, hprop⟩ := solveMazeFull_spec maze syms mk grid s e hg hs he
  have hr1 : res.1 = SolveOutcome.found p m := by
    rw [solveMaze, hres] at hrun
    exact Option.some_inj.mp hrun
  rcases hprop with ⟨p', m', hfound, hgood⟩ | ⟨hnp, -⟩
  · rw [hr1] at hfound
    obtain ⟨rfl, rfl⟩ := And.intro (SolveOutcome.found.injEq p m p' m' ▸ hfound).1
      (SolveOutcome.found.injEq p m p' m' ▸ hfound).2
    have hmoves := hgood.2.2.1
    refine ⟨movesFor_length hmoves, movesFor_get hmoves, fun hkeys => ?_⟩
    have hall : ∀ k ∈ m, k.length = 1 := by
      intro k hk
      obtain ⟨d, rfl⟩ := movesFor_mem hmoves k hk
      exact hkeys d
    rw [join_length, sum_map_length_one hall]
    exact movesFor_length hmoves
  · rw [hr1] at hnp
    cases hnp

/-- Witness for C5 on the concrete maze `P.E`. -/
theorem claim5_witness :
    (["d", "d"] : List String).length + 1 =
      ([⟨0, 0, CellType.start⟩, ⟨1, 0, CellType.path⟩,
        ⟨2, 0, CellType.finish⟩] : List Cell).length ∧
    (∀ i a b k,
      ([⟨0, 0, CellType.start⟩, ⟨1, 0, CellType.path⟩,
        ⟨2, 0, CellType.finish⟩] : List Cell)[i]? = some a →
      ([⟨0, 0, CellType.start⟩, ⟨1, 0, CellType.path⟩,
        ⟨2, 0, CellType.finish⟩] : List Cell)[i + 1]? = some b →
      (["d", "d"] : List String)[i]? = some k →
      ∃ d, getNextCell exGrid1 a d = some b ∧ k = getKeyForDirection exKeys d) ∧
    ((∀ d, (getKeyForDirection exKeys d).length = 1) →
      (String.join ["d", "d"]).length + 1 =
        ([⟨0, 0, CellType.start⟩, ⟨1, 0, CellType.path⟩,
          ⟨2, 0, CellType.finish⟩] : List Cell).length) :=
  claim5_move_string exMaze1 exSyms exKeys exGrid1 ⟨0, 0, CellType.start⟩
    ⟨2, 0, CellType.finish⟩
    [⟨0, 0, CellType.start⟩, ⟨1, 0, CellType.path⟩, ⟨2, 0, CellType.finish⟩]
    ["d", "d"] rfl (by decide) (by decide) (by decide)

theorem find?_first {α : Type} (p : α → Bool) :
    ∀ (l : List α) (a : α), l.find? p = some a ↔
      ∃ i : Nat, l[i]? = some a ∧ p a = true ∧
        ∀ j < i, ∀ (b : α), l[j]? = some b → p b = false := by
  intro l
  induction l with
  | nil => simp
  | cons x t ih =>
    intro a
    rw [List.find?_cons]
    cases hpx : p x with
    | true =>
      constructor
      · intro h
        obtain rfl : x = a := Option.some_inj.mp h
        exact ⟨0, by simp, hpx, by omega⟩
      · rintro ⟨i, hi, hpa, hmin⟩
        cases i with
        | zero =>
          rw [List.getElem?_cons_zero] at hi
          obtain rfl : x = a := Option.some_inj.mp hi
          rfl
        | succ i =>
          have h0 := hmin 0 (by omega) x (by simp)
          rw [hpx] at h0
          cases h0
    | false =>
      rw [ih]
      constructor
      · rintro ⟨i, hi, hpa, hmin⟩
        refine ⟨i + 1, by simpa using hi, hpa, ?_⟩
        intro j hj b hb
        cases j with
        | zero =>
          rw [List.getElem?_cons_zero] at hb
          obtain rfl : x = b := Option.some_inj.mp hb
          exact hpx
        | succ j =>
          rw [List.getElem?_cons_succ] at hb
          exact hmin j (by omega) b hb
      · rintro ⟨i, hi, hpa, hmin⟩
        cases i with
        | zero =>
          rw [List.getElem?_cons_zero] at hi
          obtain rfl : x = a := Option.some_inj.mp hi
          rw [hpa] at hpx
          cases hpx
        | succ i =>
          rw [List.getElem?_cons_succ] at hi
          refine ⟨i, hi, hpa, ?_⟩
          intro j hj b hb
          have := hmin (j + 1) (by omega) b (by simpa using hb)
          exact this

/-- C6: the designated Start is the first cell of the flattened grid — the
rows concatenated in order, i.e. row-major order — whose kind is Start, the
designated End is the first whose kind is End, each is `none` exactly when
no such cell exists, and duplicates are resolved by first occurrence. -/
theorem claim6_first_match (grid : List (List Cell)) :
    (∀ c, findStartCell grid = some c ↔
      ∃ i : Nat, grid.flatten[i]? = some c ∧ c.type = CellType.start ∧
        ∀ j < i, ∀ (b : Cell), grid.flatten[j]? = some b → b.type ≠ CellType.start) ∧
    (findStartCell grid = none ↔ ∀ c ∈ grid.flatten, c.type ≠ CellType.start) ∧
    (∀ c, findEndCell grid = some c ↔
      ∃ i : Nat, grid.flatten[i]? = some c ∧ c.type = CellType.finish ∧
        ∀ j < i, ∀ (b : Cell), grid.flatten[j]? = some b → b.type ≠ CellType.finish) ∧
    (findEndCell grid = none ↔ ∀ c ∈ grid.flatten, c.type ≠ CellType.finish) := by
  refine ⟨?_, ?_, ?_, ?_⟩
  · intro c
    rw [findStartCell, find?_first]
    constructor
    · rintro ⟨i, hi, hpa, hmin⟩
      refine ⟨i, hi, by simpa using hpa, ?_⟩
      intro j hj b hb
      have := hmin j hj b hb
      simpa using this
    · rintro ⟨i, hi, hpa, hmin⟩
      refine ⟨i, hi, by simpa using hpa, ?_⟩
      intro j hj b hb
      have := hmin j hj b hb
      simpa using this
  · rw [findStartCell, List.find?_eq_none]
    constructor
    · intro h c hc
      have := h c hc
      simpa using this
    · intro h c hc
      simpa using h c hc
  · intro c
    rw [findEndCell, find?_first]
    constructor
    · rintro ⟨i, hi, hpa, hmin⟩
      refine ⟨i, hi, by simpa using hpa, ?_⟩
      intro j hj b hb
      have := hmin j hj b hb
      simpa using this
    · rintro ⟨i, hi, hpa, hmin⟩
      refine ⟨i, hi, by simpa using hpa, ?_⟩
      intro j hj b hb
      have := hmin j hj b hb
      simpa using this
  · rw [findEndCell, List.find?_eq_none]
    constructor
    · intro h c hc
      have := h c hc
      simpa using this
    · intro h c hc
      simpa using h c hc

/-- C7: a cell's kind is determined from its character by the fixed
precedence wall → start → end → path; everything that matches none of the
three special symbols — the configured path symbol included — becomes
Path, and every cell of a built grid carries the kind classified from its
character. -/
theorem claim7_classification :
    (∀ (ch : Char) (syms : SymbolConfig),
      (classify ch syms = CellType.wall ↔ ch.toString = syms.wallSymbol) ∧
      (classify ch syms = CellType.start ↔
        ch.toString ≠ syms.wallSymbol ∧ ch.toString = syms.startSymbol) ∧
      (classify ch syms = CellType.finish ↔
        ch.toString ≠ syms.wallSymbol ∧ ch.toString ≠ syms.startSymbol ∧
        ch.toString = syms.endSymbol) ∧
      (classify ch syms = CellType.path ↔
        ch.toString ≠ syms.wallSymbol ∧ ch.toString ≠ syms.startSymbol ∧
        ch.toString ≠ syms.endSymbol)) ∧
    (∀ (maze : List String) (syms : SymbolConfig) (y x : Nat) (c : Cell),
      getCell (buildGrid maze syms) y x = some c →
      ∃ ch, charAt maze y x = some ch ∧ c.type = classify ch syms) := by
  constructor
  · intro ch syms
    by_cases h1 : ch.toString = syms.wallSymbol
    · have hcl : classify ch syms = CellType.wall := by
        unfold classify
        rw [if_pos h1]
      rw [hcl]
      exact ⟨iff_of_true rfl h1, iff_of_false (by decide) (fun hh => hh.1 h1),
        iff_of_false (by decide) (fun hh => hh.1 h1),
        iff_of_false (by decide) (fun hh => hh.1 h1)⟩
    · by_cases h2 : ch.toString = syms.startSymbol
      · have hcl : classify ch syms = CellType.start := by
          unfold classify
          rw [if_neg h1, if_pos h2]
        rw [hcl]
        exact ⟨iff_of_false (by decide) h1, iff_of_true rfl ⟨h1, h2⟩,
          iff_of_false (by decide) (fun hh => hh.2.1 h2),
          iff_of_false (by decide) (fun hh => hh.2.1 h2)⟩
      · by_cases h3 : ch.toString = syms.endSymbol
        · have hcl : classify ch syms = CellType.finish := by
            unfold classify
            rw [if_neg h1, if_neg h2, if_pos h3]
          rw [hcl]
          exact ⟨iff_of_false (by decide) h1, iff_of_false (by decide) (fun hh => h2 hh.2),
            iff_of_true rfl ⟨h1, h2, h3⟩,
            iff_of_false (by decide) (fun hh => hh.2.2 h3)⟩
        · have hcl : classify ch syms = CellType.path := by
            unfold classify
            rw [if_neg h1, if_neg h2, if_neg h3]
          rw [hcl]
          exact ⟨iff_of_false (by decide) h1, iff_of_false (by decide) (fun hh => h2 hh.2),
            iff_of_false (by decide) (fun hh => h3 hh.2.2),
            iff_of_true rfl ⟨h1, h2, h3⟩⟩
  · intro maze syms y x c h
    obtain ⟨ch, hch, rfl⟩ := buildGrid_cellSpec h
    exact ⟨ch, hch, rfl⟩

/-- Witness for C7: in the maze `P#E` the character `#` is a wall even
though it could have been anything else, and cell `(1, 0)` of the built
grid is classified from its character. -/
theorem claim7_witness :
    classify '#' exSyms = CellType.wall ∧
    (∃ ch, charAt exMaze2 0 1 = some ch ∧
      (⟨1, 0, CellType.wall⟩ : Cell).type = classify ch exSyms) :=
  ⟨(claim7_classification.1 '#' exSyms).1.mpr (by decide),
    claim7_classification.2 exMaze2 exSyms 0 1 ⟨1, 0, CellType.wall⟩ (by decide)⟩

/-- Unfolds `String.toLower` to a computable list map (the byte-position
recursion of `String.map` does not reduce in the kernel). -/
theorem toLower_data (s : String) : s.toLower = ⟨s.data.map Char.toLower⟩ :=
  String.map_eq Char.toLower s

/-- Positive manual move: an animating-free state, a bound key, a current
position and an in-bounds non-wall neighbour give exactly a cursor update. -/
theorem handleKeyPress_move {st : MazeState} {key : String} {d : Direction} {pos n : Cell}
    (hA : st.isAnimating = false)
    (hk : keyToDirection st.moveKeys key.toLower = some d)
    (hp : st.currentPos = some pos)
    (hn : getNextCell st.mazeGrid pos d = some n)
    (hw : n.type ≠ CellType.wall) :
    handleKeyPress st key = { st with currentPos := some n } := by
  unfold handleKeyPress
  simp [hA, hk, hp, hn, hw]

/-- Every manual key press either leaves the state unchanged or moves the
cursor to an in-grid non-wall cell. -/
theorem handleKeyPress_cases (st : MazeState) (key : String) :
    handleKeyPress st key = st ∨
    ∃ n, handleKeyPress st key = { st with currentPos := some n } ∧
      InGrid st.mazeGrid n ∧ n.type ≠ CellType.wall := by
  by_cases hA : st.isAnimating
  · refine Or.inl ?_
    unfold handleKeyPress
    rw [if_pos hA]
  · rw [Bool.not_eq_true] at hA
    cases hk : keyToDirection st.moveKeys key.toLower with
    | none =>
      refine Or.inl ?_
      unfold handleKeyPress
      simp [hA, hk]
    | some d =>
      cases hp : st.currentPos with
      | none =>
        refine Or.inl ?_
        unfold handleKeyPress
        simp [hA, hk, hp]
      | some pos =>
        cases hn : getNextCell st.mazeGrid pos d with
        | none =>
          refine Or.inl ?_
          unfold handleKeyPress
          simp [hA, hk, hp, hn]
        | some n =>
          by_cases hw : n.type = CellType.wall
          · refine Or.inl ?_
            unfold handleKeyPress
            simp [hA, hk, hp, hn, hw]
          · refine Or.inr ⟨n, ?_, getNextCell_inGrid hn, hw⟩
            unfold handleKeyPress
            simp [hA, hk, hp, hn, hw]

theorem handleKeyPress_mazeGrid (st : MazeState) (key : String) :
    (handleKeyPress st key).mazeGrid = st.mazeGrid := by
  rcases handleKeyPress_cases st key with h | ⟨n, h, -, -⟩ <;> rw [h]

/-- The cursor is absent or rests on an in-grid non-wall cell. -/
def SafePos (grid : List (List Cell)) (pos : Option Cell) : Prop :=
  pos = none ∨ ∃ n, pos = some n ∧ InGrid grid n ∧ n.type ≠ CellType.wall

/-- C8: a manual key press never places the cursor on a wall cell or
outside the grid: when the mapped neighbour is in bounds and not a wall it
becomes the new position, otherwise the position is unchanged, and over
any sequence of key events a safely placed cursor stays safely placed. -/
theorem claim8_manual_safety :
    (∀ (st : MazeState) (key : String) (d : Direction) (pos n : Cell),
      st.isAnimating = false →
      keyToDirection st.moveKeys key.toLower = some d →
      st.currentPos = some pos →
      getNextCell st.mazeGrid pos d = some n →
      n.type ≠ CellType.wall →
      handleKeyPress st key = { st with currentPos := some n }) ∧
    (∀ (st : MazeState) (key : String),
      (handleKeyPress st key).currentPos = st.currentPos ∨
      ∃ n, (handleKeyPress st key).currentPos = some n ∧ InGrid st.mazeGrid n ∧
        n.type ≠ CellType.wall) ∧
    (∀ (st : MazeState) (keys : List String),
      SafePos st.mazeGrid st.currentPos →
      SafePos st.mazeGrid (List.foldl handleKeyPress st keys).currentPos) := by
  refine ⟨?_, ?_, ?_⟩
  · intro st key d pos n hA hk hp hn hw
    exact handleKeyPress_move hA hk hp hn hw
  · intro st key
    rcases handleKeyPress_cases st key with h | ⟨n, h, hin, hw⟩
    · rw [h]
      exact Or.inl rfl
    · rw [h]
      exact Or.inr ⟨n, rfl, hin, hw⟩
  · intro st keys
    induction keys generalizing st with
    | nil => intro h; exact h
    | cons k ks ih =>
      intro h
      rw [List.foldl_cons]
      have hgrid : (handleKeyPress st k).mazeGrid = st.mazeGrid :=
        handleKeyPress_mazeGrid st k
      have hone : SafePos st.mazeGrid (handleKeyPress st k).currentPos := by
        rcases handleKeyPress_cases st k with hh | ⟨n, hh, hin, hw⟩
        · rw [hh]
          exact h
        · rw [hh]
          exact Or.inr ⟨n, rfl, hin, hw⟩
      have := ih (handleKeyPress st k) (by rwa [hgrid])
      rwa [hgrid] at this

/-- Witness for C8 on the maze `P.E`: pressing `d` from the start moves
the cursor to the path cell `(1, 0)`; the safety disjunction and the
sequence safety hold on this state. -/
theorem claim8_witness :
    handleKeyPress
        ⟨exMaze1, exGrid1, some ⟨0, 0, CellType.start⟩, some ⟨2, 0, CellType.finish⟩,
          some ⟨0, 0, CellType.start⟩, "", false, exKeys⟩ "d" =
      ⟨exMaze1, exGrid1, some ⟨0, 0, CellType.start⟩, some ⟨2, 0, CellType.finish⟩,
        some ⟨1, 0, CellType.path⟩, "", false, exKeys⟩ ∧
    SafePos exGrid1 (some ⟨0, 0, CellType.start⟩) :=
  ⟨claim8_manual_safety.1
      ⟨exMaze1, exGrid1, some ⟨0, 0, CellType.start⟩, some ⟨2, 0, CellType.finish⟩,
        some ⟨0, 0, CellType.start⟩, "", false, exKeys⟩
      "d" Direction.right ⟨0, 0, CellType.start⟩ ⟨1, 0, CellType.path⟩
      rfl (by rw [toLower_data]; decide) rfl (by decide) (by decide),
    Or.inr ⟨⟨0, 0, CellType.start⟩, rfl, ⟨0, 0, by decide⟩, by decide⟩⟩

theorem replayFinal_last : ∀ (p : List Cell) (c : Cell) (pos : Option Cell),
    p.getLast? = some c → replayFinal p pos = some c := by
  intro p
  induction p with
  | nil =>
    intro c pos h
    cases h
  | cons a t ih =>
    intro c pos h
    cases t with
    | nil =>
      simp only [List.getLast?_singleton, Option.some_inj] at h
      subst h
      rfl
    | cons b t' =>
      rw [List.getLast?_cons_cons] at h
      have h1 := ih c (some a) h
      simpa [replayFinal] using h1

/-- A component state caught mid-replay: the animating flag is set. -/
def exState9 : MazeState :=
  ⟨exMaze1, exGrid1, some ⟨0, 0, CellType.start⟩, some ⟨2, 0, CellType.finish⟩,
    none, "", true, exKeys⟩

/-- C9 (amended): while a replay animation is in progress, manual moves
are rejected as no-ops, but `solveMaze` is not gated by the animating
flag: invoking it during a replay still runs the search and updates the
cursor, the flag and the solution string. -/
theorem claim9_gating :
    (∀ (st : MazeState) (key : String), st.isAnimating = true →
      handleKeyPress st key = st) ∧
    (∀ (st : MazeState) (p : List Cell) (m : List String),
      st.isAnimating = true →
      solveMaze st.maze st.mazeGrid st.startCell st.endCell st.moveKeys =
        some (SolveOutcome.found p m) →
      solveStep st = { st with
        currentPos := replayFinal p st.currentPos
        isAnimating := false
        solutionMoves := String.join m }) := by
  constructor
  · intro st key h
    unfold handleKeyPress
    rw [if_pos h]
  · intro st p m hA hrun
    simp [solveStep, hrun]

/-- Counterexample to C9 as stated: with the animating flag set, invoking
the solver is not a no-op — the state changes (the solution string is
filled in and the flag is reset when the triggered replay completes). -/
theorem claim9_counterexample :
    exState9.isAnimating = true ∧ solveStep exState9 ≠ exState9 := by
  constructor
  · rfl
  · decide

/-- Witness for the amended C9 on a concrete mid-replay state. -/
theorem claim9_witness :
    handleKeyPress exState9 "d" = exState9 ∧
    solveStep exState9 = { exState9 with
      currentPos := replayFinal
        [⟨0, 0, CellType.start⟩, ⟨1, 0, CellType.path⟩, ⟨2, 0, CellType.finish⟩]
        exState9.currentPos,
      isAnimating := false, solutionMoves := String.join ["d", "d"] } :=
  ⟨claim9_gating.1 exState9 "d" rfl,
    claim9_gating.2 exState9
      [⟨0, 0, CellType.start⟩, ⟨1, 0, CellType.path⟩, ⟨2, 0, CellType.finish⟩]
      ["d", "d"] rfl (by decide)⟩

/-- C10: a replay applies the path cells strictly in order, each becoming
the current position (the sequence of cursor updates is exactly the path),
and replaying the path returned by a successful solve on a built grid
leaves the cursor exactly on the designated End cell. -/
theorem claim10_replay :
    (∀ (p : List Cell) (pos : Option Cell), animatePathPositions p pos = p.map some) ∧
    (∀ (maze : List String) (syms : SymbolConfig) (mk : MoveKeys)
      (grid : List (List Cell)) (s e : Cell) (p : List Cell) (m : List String)
      (pos : Option Cell),
      grid = buildGrid maze syms →
      findStartCell grid = some s → findEndCell grid = some e →
      solveMaze maze grid (some s) (some e) mk = some (SolveOutcome.found p m) →
      replayFinal p pos = some e) := by
  constructor
  · intro p
    induction p with
    | nil => intro pos; rfl
    | cons c rest ih =>
      intro pos
      simp only [animatePathPositions, List.map_cons]
      rw [ih (some c)]
  · intro maze syms mk grid s e p m pos hg hs he hrun
    obtain ⟨res, hres, hprop⟩ := solveMazeFull_spec maze syms mk grid s e hg hs he
    have hr1 : res.1 = SolveOutcome.found p m := by
      rw [solveMaze, hres] at hrun
      exact Option.some_inj.mp hrun
    rcases hprop with ⟨p', m', hfound, hgood⟩ | ⟨hnp, -⟩
    · rw [hr1] at hfound
      have hpq : p = p' ∧ m = m' := by
        have h1 := SolveOutcome.found.injEq p m p' m' ▸ hfound
        exact h1
      obtain ⟨rfl, rfl⟩ := hpq
      obtain ⟨c, hlast, hcx, hcy, hcin⟩ := hgood.2.1
      have hce : c = e := built_coords_inj hg (findEndCell_inGrid he) hcin hcx hcy
      rw [← hce]
      exact replayFinal_last p c pos hlast
    · rw [hr1] at hnp
      cases hnp

/-- Witness for C10 on the concrete maze `P.E`: the replayed solve path
ends with the cursor on the End cell `(2, 0)`. -/
theorem claim10_witness :
    animatePathPositions [⟨0, 0, CellType.start⟩, ⟨1, 0, CellType.path⟩,
        ⟨2, 0, CellType.finish⟩] none =
      [some ⟨0, 0, CellType.start⟩, some ⟨1, 0, CellType.path⟩,
        some ⟨2, 0, CellType.finish⟩] ∧
    replayFinal [⟨0, 0, CellType.start⟩, ⟨1, 0, CellType.path⟩,
        ⟨2, 0, CellType.finish⟩] none = some ⟨2, 0, CellType.finish⟩ :=
  ⟨claim10_replay.1 _ none,
    claim10_replay.2 exMaze1 exSyms exKeys exGrid1 ⟨0, 0, CellType.start⟩
      ⟨2, 0, CellType.finish⟩
      [⟨0, 0, CellType.start⟩, ⟨1, 0, CellType.path⟩, ⟨2, 0, CellType.finish⟩]
      ["d", "d"] none rfl (by decide) (by decide) (by decide)⟩
